/-
  Spec2Proof — a shallow embedding of github.com/Emyrk/google-workspace-sync
  (the `gcsync` package: sync.go, request.go, google.go and the thin `main`),
  with theorems checking the repository's natural-language specification.

  The program is a one-shot batch job: it reads a snapshot of a Coder
  deployment (organizations, groups, users), and for every eligible user
  (OIDC login, email in the configured Google Workspace domain) compares the
  user's Google groups (names normalized to lowercase with spaces removed)
  against the user's current Coder groups, accumulates a change set keyed by
  group name, creates missing groups, and patches group memberships.

  Modelling conventions:
  * UUIDs are `String`s (the Go code itself passes `uuid.String()` around).
  * The two remote services (Coder API, Google Admin SDK) are modelled as a
    `Client σ` record of oracles; reads are pure in the state `σ`, mutations
    (create group, patch group) thread the state.  `envClient` gives the
    fully abstract stateless adapter; `worldClient` gives a concrete target
    system with real membership semantics, used for the idempotence claims.
  * Log output is modelled as data: the report record carries the facts the
    log lines name (the no-changes flag, the OIDC user count, created groups)
    and a trace of every API call is accumulated.
  * Transport failures of plain reads (list organizations/groups/users,
    Google pagination) are not modelled: every such failure is fatal in the
    source (`log.Fatalf` or an early error return) before any mutation, and
    no claim depends on them.  Group creation and group patching can fail.
-/
import Mathlib

namespace GWSync

/-- A Coder organization (`codersdk.Organization`): only the fields the
program reads — the ID and the default flag. -/
structure Organization where
  id : String
  isDefault : Bool
deriving Repr, DecidableEq

/-- A Coder group as the program reads it (`codersdk.Group`): ID and name. -/
structure CoderGroup where
  id : String
  name : String
deriving Repr, DecidableEq

/-- A Coder user (`codersdk.User`): ID, username, email and login type. -/
structure CoderUser where
  id : String
  username : String
  email : String
  loginType : String
deriving Repr, DecidableEq

/-- The `codersdk.LoginTypeOIDC` constant. -/
def LoginTypeOIDC : String := "oidc"

/-- A Google Workspace group (`admin.Group`): the fields the program reads
are the display name (the matching key) and the email (used only in the
skip-diagnostic for unnamed groups). -/
structure GoogleGroup where
  name : String
  email : String
deriving Repr, DecidableEq

/-- The body of a Coder group-membership patch
(`codersdk.PatchGroupRequest`): user IDs to add and to remove. -/
structure PatchGroupRequest where
  AddUsers : List String := []
  RemoveUsers : List String := []
deriving Repr, DecidableEq

/-- The body of a Coder group-creation call (`codersdk.CreateGroupRequest`),
as the program fills it in `createMissingGroups`. -/
structure CreateGroupRequest where
  Name : String
  DisplayName : String
  AvatarURL : String
  QuotaAllowance : Nat
deriving Repr, DecidableEq

/-- Filters of a Coder group-listing call (`codersdk.GroupArguments`).  In
the Go SDK both fields are strings whose empty value means "no filter". -/
structure GroupArguments where
  organization : String := ""
  hasMember : String := ""
deriving Repr, DecidableEq

/-- One remote API call, as recorded in the run trace. -/
inductive ApiCall where
  | listOrganizations
  | listGroups (args : GroupArguments)
  | listUsers
  | listGoogleGroups (email : String)
  | createGroup (orgId : String) (req : CreateGroupRequest)
  | patchGroup (groupId : String) (req : PatchGroupRequest)
deriving Repr, DecidableEq

/-- Whether an API call mutates the target system. -/
def ApiCall.isMutation : ApiCall → Bool
  | .createGroup _ _ => true
  | .patchGroup _ _ => true
  | _ => false

/-! ## Name normalization (`ExpectedCoderGroups`, sync.go)

The source computes `strings.ToLower(strings.ReplaceAll(group.Name, " ", ""))`.
`ReplaceAll` with pattern `" "` and empty replacement deletes every space
character; `ToLower` lowercases character by character.  We embed both at the
character-list level. -/

/-- Normalize a Google group name: remove all spaces, then lowercase
(`strings.ToLower(strings.ReplaceAll(name, " ", ""))`). -/
def normalizeName (s : String) : String :=
  String.mk ((s.data.filter (fun c => c ≠ ' ')).map Char.toLower)

/-- The list of Coder group names a user is expected to be in, from their
Google groups (`ExpectedCoderGroups`, sync.go): normalize each name, skipping
groups whose name is empty (the source logs a diagnostic and continues). -/
def ExpectedCoderGroups : List GoogleGroup → List String
  | [] => []
  | g :: rest =>
    if g.name = "" then ExpectedCoderGroups rest
    else normalizeName g.name :: ExpectedCoderGroups rest

/-! ## The diff (`slice.SymmetricDifference`)

Modelled from the spec: the external dependency
`github.com/coder/coder/v2/coderd/util/slice.SymmetricDifference` is not part
of this repository.  Its contract, as the call site documents ("expected is
the set of groups the user should be in; SymmetricDifference returns the
groups to add & remove to make the set {cGroupNames} match the set
{expected}") and as the spec states ("toAdd = Expected − Actual, toRemove =
Actual − Expected; set subtraction; order-independent; duplicates within a
set collapse"), is set subtraction both ways with duplicates ignored. -/

/-- Modelled from the spec: `slice.SymmetricDifference a b` returns
`(add, remove)` with `add = b − a` and `remove = a − b` as set subtraction,
collapsing duplicates within each input. -/
def SymmetricDifference (a b : List String) : List String × List String :=
  (b.dedup.filter (fun x => x ∉ a), a.dedup.filter (fun x => x ∉ b))

/-! ## The change set (`ChangeGroupRequests`, request.go)

A Go map from group name to `PatchGroupRequest`, embedded as an association
list with distinct keys (Go map iteration order is unspecified; the list
order is one allowed order). -/

/-- Association-list lookup: the Go map read `m[k]`, as an `Option`. -/
def alFind {α : Type} : List (String × α) → String → Option α
  | [], _ => none
  | p :: rest, k => if p.1 = k then some p.2 else alFind rest k

/-- Association-list write `m[k] = v`: overwrite the existing entry, else
append a new one. -/
def alInsert {α : Type} : List (String × α) → String → α → List (String × α)
  | [], k, v => [(k, v)]
  | p :: rest, k, v =>
    if p.1 = k then (k, v) :: rest else p :: alInsert rest k v

/-- Association-list delete: the Go `delete(m, k)`. -/
def alErase {α : Type} : List (String × α) → String → List (String × α)
  | [], _ => []
  | p :: rest, k => if p.1 = k then alErase rest k else p :: alErase rest k

/-- The change set accumulated across all users: group name → pending
membership patch (`ChangeGroupRequests`, request.go). -/
abbrev ChangeGroupRequests : Type := List (String × PatchGroupRequest)

namespace ChangeGroupRequests

/-- Lookup of a group's pending patch. -/
def find (c : ChangeGroupRequests) (g : String) : Option PatchGroupRequest :=
  alFind c g

/-- Lookup with the Go zero value for a missing key. -/
def findD (c : ChangeGroupRequests) (g : String) : PatchGroupRequest :=
  (find c g).getD {}

/-- Record that `user` must be added to `group` (`AddUser`, request.go):
create an empty entry when the key is absent, then append to `AddUsers`. -/
def AddUser (c : ChangeGroupRequests) (group user : String) :
    ChangeGroupRequests :=
  let req := findD c group
  alInsert c group { req with AddUsers := req.AddUsers ++ [user] }

/-- Record that `user` must be removed from `group` (`RemoveUser`,
request.go): create an empty entry when the key is absent, then append to
`RemoveUsers`. -/
def RemoveUser (c : ChangeGroupRequests) (group user : String) :
    ChangeGroupRequests :=
  let req := findD c group
  alInsert c group { req with RemoveUsers := req.RemoveUsers ++ [user] }

/-- The group names present in the change set (the Go map's keys). -/
def keys (c : ChangeGroupRequests) : List String :=
  c.map (·.1)

end ChangeGroupRequests

/-! ## The everyone group (sync.go, per-user loop)

The loop over the user's current Coder groups also watches for the group
whose ID equals the default organization's ID — Coder's implicit
scope-wide "Everyone" group — falling back to the literal name
`"Everyone"`. -/

/-- The name always forced into the expected set: the name of the current
group whose ID equals the default organization's ID (the last such, matching
the Go loop), else `"Everyone"`. -/
def everyoneGroupName (cGroups : List CoderGroup) (defaultOrgId : String) :
    String :=
  cGroups.foldl (fun acc g => if g.id = defaultOrgId then g.name else acc)
    "Everyone"

/-! ## The adapter interface

The remote services, as the engine consumes them.  Reads are pure in the
adapter state `σ`; mutations return the next state.  `createGroup` and
`patchGroup` may fail (`none` / `false` result); the plain listings cannot
(their transport failures are fatal in the source before any mutation, and
no claim depends on them). -/

/-- The two remote services the engine calls (the Coder API client and the
Google Admin SDK), as a record of oracles over an adapter state `σ`. -/
structure Client (σ : Type) where
  listOrganizations : σ → List Organization
  listGroups : σ → GroupArguments → List CoderGroup
  listUsers : σ → List CoderUser
  listGoogleGroups : σ → String → List GoogleGroup
  createGroup : σ → String → CreateGroupRequest → σ × Option CoderGroup
  patchGroup : σ → String → PatchGroupRequest → σ × Bool

/-! ## The reconciliation engine (`SyncGroups`, sync.go) -/

/-- The first organization marked default (`defaultOrganization`, sync.go);
`none` is the fatal "default organization not found" error. -/
def defaultOrganization (orgs : List Organization) : Option Organization :=
  orgs.find? (fun o => o.isDefault)

/-- The target-group snapshot as a name-keyed map (`coderGroups`, sync.go):
`groupMap[group.Name] = group` over the listing, later entries
overwriting. -/
def buildGroupMap (gs : List CoderGroup) : List (String × CoderGroup) :=
  gs.foldl (fun m g => alInsert m g.name g) []

/-- The creation request `createMissingGroups` fills in for a missing group:
the group's name, empty display name, the "NEW" icon, zero quota. -/
def mkCreateGroupRequest (group : String) : CreateGroupRequest :=
  { Name := group, DisplayName := "", AvatarURL := "/emojis/1f195.png",
    QuotaAllowance := 0 }

/-- Embedding of Go's `strings.HasSuffix` at the character level: the
suffix's characters end the string's characters. -/
def stringHasSuffix (s post : String) : Bool :=
  post.data.isSuffixOf s.data

/-- Whether a user passes the per-user eligibility filter: OIDC login type
and an email in the configured Google Workspace domain. -/
def eligibleUser (domain : String) (u : CoderUser) : Bool :=
  u.loginType == LoginTypeOIDC && stringHasSuffix u.email ("@" ++ domain)

/-- The body of one eligible-user iteration (sync.go per-user loop): fetch
the user's Google groups (by email) and current Coder groups (by username,
with no organization filter), and hand actual names versus expected names
plus the everyone group to the symmetric difference. -/
def userDiff {σ : Type} (c : Client σ) (s : σ) (defaultOrgId : String)
    (u : CoderUser) : List String × List String :=
  let gGroups := c.listGoogleGroups s u.email
  let cGroups := c.listGroups s { hasMember := u.username }
  let cGroupNames := cGroups.map (·.name)
  let expected := ExpectedCoderGroups gGroups
  SymmetricDifference cGroupNames
    (expected ++ [everyoneGroupName cGroups defaultOrgId])

/-- The per-user loop of `SyncGroups`: skip users that are not OIDC or not
in the domain, count the rest, and fold each eligible user's diff into the
change set (all additions, then all removals, as the source does).  Reads do
not change the adapter state, so `σ` is not threaded here. -/
def perUserLoop {σ : Type} (c : Client σ) (s : σ)
    (defaultOrgId domain : String) :
    List CoderUser → ChangeGroupRequests → Nat → List ApiCall →
    ChangeGroupRequests × Nat × List ApiCall
  | [], changes, count, tr => (changes, count, tr)
  | u :: rest, changes, count, tr =>
    if u.loginType ≠ LoginTypeOIDC then
      perUserLoop c s defaultOrgId domain rest changes count tr
    else if ¬ stringHasSuffix u.email ("@" ++ domain) then
      perUserLoop c s defaultOrgId domain rest changes count tr
    else
      let diff := userDiff c s defaultOrgId u
      let changes1 :=
        diff.1.foldl (fun ch g => ChangeGroupRequests.AddUser ch g u.id)
          changes
      let changes2 :=
        diff.2.foldl (fun ch g => ChangeGroupRequests.RemoveUser ch g u.id)
          changes1
      perUserLoop c s defaultOrgId domain rest changes2 (count + 1)
        (tr ++ [ApiCall.listGoogleGroups u.email,
                ApiCall.listGroups { hasMember := u.username }])

/-- The loop of `createMissingGroups` (sync.go), over the change set's key
list (the Go code ranges over the map, deleting only the key under visit, so
the initially present keys are each visited once): a key already in the
group map is skipped; otherwise the group is created — on failure its change
entry is deleted and the run continues, on success the group map and the
created list grow. -/
def createMissingGroupsLoop {σ : Type} (c : Client σ) (orgId : String) :
    List String → σ → List (String × CoderGroup) → ChangeGroupRequests →
    List CoderGroup → List ApiCall →
    σ × List (String × CoderGroup) × ChangeGroupRequests ×
      List CoderGroup × List ApiCall
  | [], s, gm, changes, created, tr => (s, gm, changes, created, tr)
  | g :: rest, s, gm, changes, created, tr =>
    match alFind gm g with
    | some _ => createMissingGroupsLoop c orgId rest s gm changes created tr
    | none =>
      let cr := c.createGroup s orgId (mkCreateGroupRequest g)
      match cr.2 with
      | none =>
        createMissingGroupsLoop c orgId rest cr.1 gm (alErase changes g)
          created (tr ++ [ApiCall.createGroup orgId (mkCreateGroupRequest g)])
      | some newGroup =>
        createMissingGroupsLoop c orgId rest cr.1 (alInsert gm g newGroup)
          changes (created ++ [newGroup])
          (tr ++ [ApiCall.createGroup orgId (mkCreateGroupRequest g)])

/-- `createMissingGroups` (sync.go): run the creation loop over the change
set's keys. -/
def createMissingGroups {σ : Type} (c : Client σ) (s : σ) (orgId : String)
    (gm : List (String × CoderGroup)) (changes : ChangeGroupRequests)
    (tr : List ApiCall) :
    σ × List (String × CoderGroup) × ChangeGroupRequests ×
      List CoderGroup × List ApiCall :=
  createMissingGroupsLoop c orgId (ChangeGroupRequests.keys changes) s gm
    changes [] tr

/-- `applyGroupChanges` (sync.go): one membership patch per remaining change
entry.  A group that cannot be resolved in the group map, or a failing
patch, is fatal (`some errorMessage`) and ends the loop. -/
def applyGroupChangesLoop {σ : Type} (c : Client σ) :
    ChangeGroupRequests → σ → List (String × CoderGroup) → List ApiCall →
    σ × List ApiCall × Option String
  | [], s, _, tr => (s, tr, none)
  | (g, req) :: rest, s, gm, tr =>
    match alFind gm g with
    | none =>
      (s, tr, some ("group " ++ g ++ " not found, unable to apply group sync"))
    | some coderGroup =>
      let pr := c.patchGroup s coderGroup.id req
      if pr.2 then
        applyGroupChangesLoop c rest pr.1 gm
          (tr ++ [ApiCall.patchGroup coderGroup.id req])
      else
        (pr.1, tr ++ [ApiCall.patchGroup coderGroup.id req],
         some ("failed to patch group " ++ g))

/-- The observable outcome of a successful run, carrying the facts the
source logs: the OIDC-user count, whether the "No changes to make" message
was emitted, the change set right after the per-user loop, the created
groups, and the change set that was applied. -/
structure SyncReport where
  oidcUserCount : Nat
  noChanges : Bool
  changesAfterDiff : ChangeGroupRequests
  createdGroups : List CoderGroup
  finalChanges : ChangeGroupRequests
deriving Repr, DecidableEq

/-- The trace after the three snapshot reads: list organizations, list the
default organization's groups, list all users. -/
def trInit (d : Organization) : List ApiCall :=
  [ApiCall.listOrganizations, ApiCall.listGroups { organization := d.id },
   ApiCall.listUsers]

/-- The body of `SyncGroups` once the default organization is resolved:
snapshot the organization's groups, loop over all users accumulating the
change set, stop with the "no changes" report when that set is empty,
otherwise create missing groups and apply every remaining entry. -/
def syncAfterDefault {σ : Type} (c : Client σ) (s : σ) (domain : String)
    (d : Organization) : σ × List ApiCall × Except String SyncReport :=
  let gm := buildGroupMap (c.listGroups s { organization := d.id })
  let diffed := perUserLoop c s d.id domain (c.listUsers s) [] 0 (trInit d)
  let changes := diffed.1
  if changes.isEmpty then
    (s, diffed.2.2, Except.ok { oidcUserCount := diffed.2.1,
                                noChanges := true,
                                changesAfterDiff := changes,
                                createdGroups := [],
                                finalChanges := changes })
  else
    let createRes := createMissingGroups c s d.id gm changes diffed.2.2
    let applyRes := applyGroupChangesLoop c createRes.2.2.1 createRes.1
      createRes.2.1 createRes.2.2.2.2
    match applyRes.2.2 with
    | some e => (applyRes.1, applyRes.2.1, Except.error e)
    | none =>
      (applyRes.1, applyRes.2.1,
       Except.ok { oidcUserCount := diffed.2.1, noChanges := false,
                   changesAfterDiff := changes,
                   createdGroups := createRes.2.2.2.1,
                   finalChanges := createRes.2.2.1 })

/-- The engine (`SyncGroups`, sync.go): resolve the default organization
(fatal when absent) and run the body.  Returns the final adapter state, the
full API-call trace, and the result. -/
def SyncGroups {σ : Type} (c : Client σ) (s : σ) (domain : String) :
    σ × List ApiCall × Except String SyncReport :=
  match defaultOrganization (c.listOrganizations s) with
  | none =>
    (s, [ApiCall.listOrganizations],
     Except.error "default organization not found")
  | some defaultOrg => syncAfterDefault c s domain defaultOrg

/-! ## Adapter instances

`envClient` is the fully abstract stateless adapter: an `Env` fixes every
answer as a pure function of the request.  `worldClient` is a concrete
target system with real membership semantics, used to state idempotence. -/

/-- A stateless adapter behavior: every answer is a pure function of the
request. -/
structure Env where
  organizations : List Organization
  groupsAnswer : GroupArguments → List CoderGroup
  users : List CoderUser
  googleGroupsOf : String → List GoogleGroup
  createGroupResult : String → CreateGroupRequest → Option CoderGroup
  patchGroupResult : String → PatchGroupRequest → Bool

/-- The stateless adapter as a `Client Unit`. -/
def envClient (e : Env) : Client Unit where
  listOrganizations := fun _ => e.organizations
  listGroups := fun _ args => e.groupsAnswer args
  listUsers := fun _ => e.users
  listGoogleGroups := fun _ email => e.googleGroupsOf email
  createGroup := fun _ orgId req => ((), e.createGroupResult orgId req)
  patchGroup := fun _ gid req => ((), e.patchGroupResult gid req)

/-- A target-system group with its organization and member list (user
IDs). -/
structure WGroup where
  id : String
  orgId : String
  name : String
  members : List String
deriving Repr, DecidableEq

/-- The coder-API view of a target-system group. -/
def WGroup.toCoderGroup (g : WGroup) : CoderGroup :=
  { id := g.id, name := g.name }

/-- A concrete target-system state: organizations, groups with memberships,
users, and the (external, unchanging) Google directory. -/
structure World where
  organizations : List Organization
  groups : List WGroup
  users : List CoderUser
  googleGroupsOf : String → List GoogleGroup

/-- Whether a group matches a `GroupArguments` filter: an empty
`organization` means no organization filter, an empty `hasMember` means no
membership filter; a nonempty `hasMember` names a user by username and the
group must contain that user's ID. -/
def World.matchesArgs (w : World) (args : GroupArguments) (g : WGroup) :
    Bool :=
  (args.organization == "" || g.orgId == args.organization) &&
  (args.hasMember == "" ||
    match w.users.find? (fun u => u.username == args.hasMember) with
    | none => false
    | some u => g.members.contains u.id)

/-- The ID the concrete target system assigns to a freshly created group. -/
def createdGroupId (name : String) : String := "created-" ++ name

/-- The group the concrete target system creates for a request: fresh ID,
the requested organization and name, no members. -/
def newWGroup (orgId name : String) : WGroup :=
  { id := createdGroupId name, orgId := orgId, name := name, members := [] }

/-- One membership patch applied to a group: drop the removed IDs, append
the added IDs that are not already members (set semantics). -/
def applyReq (g : WGroup) (req : PatchGroupRequest) : WGroup :=
  { g with members :=
      g.members.filter (fun m => m ∉ req.RemoveUsers) ++
      req.AddUsers.filter (fun m => m ∉ g.members) }

/-- A membership patch addressed by group ID, over a group list. -/
def patchGroupsById (gs : List WGroup) (gid : String)
    (req : PatchGroupRequest) : List WGroup :=
  gs.map (fun g => if g.id = gid then applyReq g req else g)

/-- The concrete target system as a `Client World`: listings answer from the
state, creation appends a fresh empty group in the requested organization
and always succeeds, patching removes then adds the requested member IDs
(set semantics) and always succeeds — the "fully applied, nothing external
changes" scenario of the idempotence requirement. -/
def worldClient : Client World where
  listOrganizations := fun w => w.organizations
  listGroups := fun w args =>
    (w.groups.filter (w.matchesArgs args)).map WGroup.toCoderGroup
  listUsers := fun w => w.users
  listGoogleGroups := fun w email => w.googleGroupsOf email
  createGroup := fun w orgId req =>
    ({ w with groups := w.groups ++ [newWGroup orgId req.Name] },
     some (newWGroup orgId req.Name).toCoderGroup)
  patchGroup := fun w gid req =>
    ({ w with groups := patchGroupsById w.groups gid req }, true)

/-! ## Basic lemmas about the association-list map operations -/

theorem alFind_alInsert_self {α : Type} (m : List (String × α)) (k : String)
    (v : α) : alFind (alInsert m k v) k = some v := by
  induction m with
  | nil => simp [alInsert, alFind]
  | cons p rest ih =>
    by_cases h : p.1 = k
    · simp [alInsert, alFind, h]
    · simp [alInsert, alFind, h, ih]

theorem alFind_alInsert_ne {α : Type} (m : List (String × α)) (k k' : String)
    (v : α) (h : k' ≠ k) : alFind (alInsert m k v) k' = alFind m k' := by
  have h' : ¬ (k = k') := fun h2 => h h2.symm
  induction m with
  | nil => simp [alInsert, alFind, h']
  | cons p rest ih =>
    by_cases hp : p.1 = k
    · have hp' : ¬ p.1 = k' := by rw [hp]; exact h'
      simp [alInsert, alFind, hp, h', hp']
    · simp [alInsert, alFind, hp, ih]

theorem alFind_alErase_self {α : Type} (m : List (String × α)) (k : String) :
    alFind (alErase m k) k = none := by
  induction m with
  | nil => simp [alErase, alFind]
  | cons p rest ih =>
    by_cases h : p.1 = k
    · simpa [alErase, h] using ih
    · simpa [alErase, alFind, h] using ih

theorem alFind_alErase_ne {α : Type} (m : List (String × α)) (k k' : String)
    (h : k' ≠ k) : alFind (alErase m k) k' = alFind m k' := by
  induction m with
  | nil => simp [alErase, alFind]
  | cons p rest ih =>
    by_cases hp : p.1 = k
    · have h'' : ¬ (k = k') := fun h2 => h h2.symm
      simp [alErase, alFind, hp, h'', ih]
    · simp [alErase, alFind, hp, ih]

theorem alErase_alErase {α : Type} (m : List (String × α)) (k : String) :
    alErase (alErase m k) k = alErase m k := by
  induction m with
  | nil => simp [alErase]
  | cons p rest ih =>
    by_cases h : p.1 = k
    · simp [alErase, h, ih]
    · simp [alErase, h, ih]

theorem alFind_eq_none_iff {α : Type} (m : List (String × α)) (k : String) :
    alFind m k = none ↔ k ∉ m.map (·.1) := by
  induction m with
  | nil => simp [alFind]
  | cons p rest ih =>
    by_cases h : p.1 = k
    · simp [alFind, h]
    · have h' : ¬ k = p.1 := fun h2 => h h2.symm
      simp [alFind, h, h', ih]

theorem keys_alInsert {α : Type} (m : List (String × α)) (k : String)
    (v : α) :
    (alInsert m k v).map (·.1) =
      if k ∈ m.map (·.1) then m.map (·.1) else m.map (·.1) ++ [k] := by
  induction m with
  | nil => simp [alInsert]
  | cons p rest ih =>
    by_cases h : p.1 = k
    · simp [alInsert, h]
    · have h' : ¬ k = p.1 := fun h2 => h h2.symm
      by_cases hk : k ∈ rest.map (·.1)
      · simp [alInsert, h, h', hk, ih]
      · simp [alInsert, h, h', hk, ih]

theorem nodup_keys_alInsert {α : Type} (m : List (String × α)) (k : String)
    (v : α) (h : (m.map (·.1)).Nodup) :
    ((alInsert m k v).map (·.1)).Nodup := by
  rw [keys_alInsert]
  by_cases hk : k ∈ m.map (·.1)
  · simpa [hk] using h
  · rw [if_neg hk]
    refine List.nodup_append.mpr ⟨h, List.nodup_singleton k, ?_⟩
    intro a ha hb
    rw [List.mem_singleton] at hb
    subst hb
    exact hk ha

/-! ## The symmetric difference as a set operation -/

theorem mem_symmetricDifference_add (a b : List String) (x : String) :
    x ∈ (SymmetricDifference a b).1 ↔ x ∈ b ∧ x ∉ a := by
  simp [SymmetricDifference, List.mem_filter]

theorem mem_symmetricDifference_remove (a b : List String) (x : String) :
    x ∈ (SymmetricDifference a b).2 ↔ x ∈ a ∧ x ∉ b := by
  simp [SymmetricDifference, List.mem_filter]

theorem nodup_symmetricDifference (a b : List String) :
    (SymmetricDifference a b).1.Nodup ∧ (SymmetricDifference a b).2.Nodup :=
  ⟨(b.nodup_dedup).filter _, (a.nodup_dedup).filter _⟩

theorem symmetricDifference_eq_nil (a b : List String)
    (h : ∀ x, x ∈ a ↔ x ∈ b) : SymmetricDifference a b = ([], []) := by
  have h1 : (SymmetricDifference a b).1 = [] := by
    rw [List.eq_nil_iff_forall_not_mem]
    intro x hx
    rw [mem_symmetricDifference_add] at hx
    exact hx.2 ((h x).mpr hx.1)
  have h2 : (SymmetricDifference a b).2 = [] := by
    rw [List.eq_nil_iff_forall_not_mem]
    intro x hx
    rw [mem_symmetricDifference_remove] at hx
    exact hx.2 ((h x).mp hx.1)
  calc SymmetricDifference a b
      = ((SymmetricDifference a b).1, (SymmetricDifference a b).2) := rfl
    _ = ([], []) := by rw [h1, h2]

theorem symmetricDifference_disjoint (a b : List String) (x : String) :
    ¬ (x ∈ (SymmetricDifference a b).1 ∧ x ∈ (SymmetricDifference a b).2) := by
  rw [mem_symmetricDifference_add, mem_symmetricDifference_remove]
  tauto

theorem toFinset_symmetricDifference_add (a b : List String) :
    (SymmetricDifference a b).1.toFinset = b.toFinset \ a.toFinset := by
  ext x
  simp [mem_symmetricDifference_add]

theorem toFinset_symmetricDifference_remove (a b : List String) :
    (SymmetricDifference a b).2.toFinset = a.toFinset \ b.toFinset := by
  ext x
  simp [mem_symmetricDifference_remove]

/-! ## Change-set operation lemmas -/

theorem find_AddUser_self (c : ChangeGroupRequests) (g u : String) :
    ChangeGroupRequests.find (ChangeGroupRequests.AddUser c g u) g =
      some { AddUsers := (ChangeGroupRequests.findD c g).AddUsers ++ [u],
             RemoveUsers := (ChangeGroupRequests.findD c g).RemoveUsers } := by
  simp [ChangeGroupRequests.AddUser, ChangeGroupRequests.find,
    alFind_alInsert_self]

theorem find_AddUser_ne (c : ChangeGroupRequests) (g g' u : String)
    (h : g' ≠ g) :
    ChangeGroupRequests.find (ChangeGroupRequests.AddUser c g u) g' =
      ChangeGroupRequests.find c g' := by
  simp [ChangeGroupRequests.AddUser, ChangeGroupRequests.find,
    alFind_alInsert_ne _ _ _ _ h]

theorem find_RemoveUser_self (c : ChangeGroupRequests) (g u : String) :
    ChangeGroupRequests.find (ChangeGroupRequests.RemoveUser c g u) g =
      some { AddUsers := (ChangeGroupRequests.findD c g).AddUsers,
             RemoveUsers :=
               (ChangeGroupRequests.findD c g).RemoveUsers ++ [u] } := by
  simp [ChangeGroupRequests.RemoveUser, ChangeGroupRequests.find,
    alFind_alInsert_self]

theorem find_RemoveUser_ne (c : ChangeGroupRequests) (g g' u : String)
    (h : g' ≠ g) :
    ChangeGroupRequests.find (ChangeGroupRequests.RemoveUser c g u) g' =
      ChangeGroupRequests.find c g' := by
  simp [ChangeGroupRequests.RemoveUser, ChangeGroupRequests.find,
    alFind_alInsert_ne _ _ _ _ h]

/-! ## Claim theorems: the pure core -/

/-- C3: the expected-name computation maps each source group with a
non-empty name to its normalized (space-stripped, lowercased) name and
silently skips every group whose name is empty, so no entry for such a
group appears in the expected set; `normalizeName "Cat Lovers"` is
`"catlovers"`. -/
theorem expectedCoderGroups_spec (groups : List GoogleGroup) :
    ExpectedCoderGroups groups =
      (groups.filter (fun g => g.name ≠ "")).map
        (fun g => normalizeName g.name) ∧
    normalizeName "Cat Lovers" = "catlovers" := by
  constructor
  · induction groups with
    | nil => rfl
    | cons g rest ih =>
      by_cases h : g.name = ""
      · simp [ExpectedCoderGroups, h, ih]
      · simp [ExpectedCoderGroups, h, ih]
  · decide

/-- C1: for the per-user diff inputs — Actual the user's current target
group names, Expected the normalized source-group names plus the everyone
group — the computed `toAdd` is exactly Expected − Actual and `toRemove`
exactly Actual − Expected as set subtraction: membership in either output
depends only on set membership in the inputs (so the result is
order-independent), both outputs are duplicate-free, and the two `toFinset`
equations state the subtraction at the set level, so a name in both inputs
is in neither output. -/
theorem diff_is_set_subtraction (gGroups : List GoogleGroup)
    (cGroups : List CoderGroup) (everyone : String) (x : String) :
    (x ∈ (SymmetricDifference (cGroups.map (·.name))
            (ExpectedCoderGroups gGroups ++ [everyone])).1 ↔
       (x ∈ ExpectedCoderGroups gGroups ++ [everyone] ∧
        x ∉ cGroups.map (·.name))) ∧
    (x ∈ (SymmetricDifference (cGroups.map (·.name))
            (ExpectedCoderGroups gGroups ++ [everyone])).2 ↔
       (x ∈ cGroups.map (·.name) ∧
        x ∉ ExpectedCoderGroups gGroups ++ [everyone])) ∧
    (SymmetricDifference (cGroups.map (·.name))
        (ExpectedCoderGroups gGroups ++ [everyone])).1.Nodup ∧
    (SymmetricDifference (cGroups.map (·.name))
        (ExpectedCoderGroups gGroups ++ [everyone])).2.Nodup ∧
    (SymmetricDifference (cGroups.map (·.name))
          (ExpectedCoderGroups gGroups ++ [everyone])).1.toFinset =
        (ExpectedCoderGroups gGroups ++ [everyone]).toFinset \
          (cGroups.map (·.name)).toFinset ∧
    (SymmetricDifference (cGroups.map (·.name))
          (ExpectedCoderGroups gGroups ++ [everyone])).2.toFinset =
        (cGroups.map (·.name)).toFinset \
          (ExpectedCoderGroups gGroups ++ [everyone]).toFinset :=
  ⟨mem_symmetricDifference_add _ _ _, mem_symmetricDifference_remove _ _ _,
   (nodup_symmetricDifference _ _).1, (nodup_symmetricDifference _ _).2,
   toFinset_symmetricDifference_add _ _,
   toFinset_symmetricDifference_remove _ _⟩

/-- C10: `AddUser c g u` updates exactly `g`'s entry, appending `u` to its
`AddUsers` (starting from the zero value when the entry is absent) and
keeping its `RemoveUsers`; every other group's entry is unchanged.
`RemoveUser` acts symmetrically on `RemoveUsers`. -/
theorem changeGroupRequests_frame (c : ChangeGroupRequests) (g u : String) :
    (ChangeGroupRequests.find (ChangeGroupRequests.AddUser c g u) g =
       some { AddUsers := (ChangeGroupRequests.findD c g).AddUsers ++ [u],
              RemoveUsers := (ChangeGroupRequests.findD c g).RemoveUsers }) ∧
    (∀ g', g' ≠ g →
       ChangeGroupRequests.find (ChangeGroupRequests.AddUser c g u) g' =
         ChangeGroupRequests.find c g') ∧
    (ChangeGroupRequests.find (ChangeGroupRequests.RemoveUser c g u) g =
       some { AddUsers := (ChangeGroupRequests.findD c g).AddUsers,
              RemoveUsers :=
                (ChangeGroupRequests.findD c g).RemoveUsers ++ [u] }) ∧
    (∀ g', g' ≠ g →
       ChangeGroupRequests.find (ChangeGroupRequests.RemoveUser c g u) g' =
         ChangeGroupRequests.find c g') :=
  ⟨find_AddUser_self c g u, fun g' h => find_AddUser_ne c g g' u h,
   find_RemoveUser_self c g u, fun g' h => find_RemoveUser_ne c g g' u h⟩

/-- Witness for C10 at concrete inputs: an existing entry for another group
is untouched by `AddUser`. -/
theorem changeGroupRequests_frame_witness :
    ChangeGroupRequests.find
        (ChangeGroupRequests.AddUser [("a", ⟨["v"], ["w"]⟩)] "g" "u") "a" =
      some ⟨["v"], ["w"]⟩ :=
  (changeGroupRequests_frame [("a", ⟨["v"], ["w"]⟩)] "g" "u").2.1 "a"
    (by decide)

/-! ## The everyone group name -/

theorem foldl_everyone (dId : String) (cGroups : List CoderGroup)
    (acc : String) :
    cGroups.foldl (fun acc g => if g.id = dId then g.name else acc) acc =
      (match cGroups.reverse.find? (fun g => g.id = dId) with
       | some g => g.name
       | none => acc) := by
  induction cGroups generalizing acc with
  | nil => simp
  | cons g rest ih =>
    simp only [List.foldl_cons, List.reverse_cons, List.find?_append, ih]
    cases hfind : rest.reverse.find? (fun g => g.id = dId) with
    | some h => simp [hfind]
    | none =>
      by_cases hg : g.id = dId
      · simp [hfind, hg, List.find?]
      · simp [hfind, hg, List.find?]

/-- C8: the everyone-group name is the name of the current target group
whose ID equals the default scope's ID when one exists in the user's
current groups (the last one, matching the source's loop), and the literal
`"Everyone"` otherwise; it is a member of the expected set however the
source groups look, and it never lands in `toRemove`. -/
theorem everyone_group_invariant (cGroups : List CoderGroup) (dId : String)
    (gGroups : List GoogleGroup) :
    everyoneGroupName cGroups dId =
      (match cGroups.reverse.find? (fun g => g.id = dId) with
       | some g => g.name
       | none => "Everyone") ∧
    everyoneGroupName cGroups dId ∈
      ExpectedCoderGroups gGroups ++ [everyoneGroupName cGroups dId] ∧
    everyoneGroupName cGroups dId ∉
      (SymmetricDifference (cGroups.map (·.name))
        (ExpectedCoderGroups gGroups ++ [everyoneGroupName cGroups dId])).2 := by
  refine ⟨foldl_everyone dId cGroups "Everyone", by simp, ?_⟩
  rw [mem_symmetricDifference_remove]
  simp

/-! ## Claim theorems: fail-fast on a missing default organization (C4) -/

/-- C4: when no organization is marked default, the engine stops at once
with the "default organization not found" error: the adapter state is
untouched (so no group was created and no membership was patched) and the
trace holds only the organization listing — no group listing, no per-user
fetch, no mutation. -/
theorem no_default_scope_fails_fast {σ : Type} (c : Client σ) (s : σ)
    (domain : String)
    (h : ∀ o ∈ c.listOrganizations s, o.isDefault = false) :
    SyncGroups c s domain =
      (s, [ApiCall.listOrganizations],
       Except.error "default organization not found") := by
  have hfind : defaultOrganization (c.listOrganizations s) = none := by
    rw [defaultOrganization, List.find?_eq_none]
    intro o ho
    simp [h o ho]
  simp [SyncGroups, hfind]

/-- A stateless adapter with one non-default organization, for the C4
witness. -/
def testEnvNoDefault : Env where
  organizations := [{ id := "org1", isDefault := false }]
  groupsAnswer := fun _ => []
  users := []
  googleGroupsOf := fun _ => []
  createGroupResult := fun _ _ => none
  patchGroupResult := fun _ _ => false

/-- Witness for C4: a concrete adapter with no default organization makes
the run fail fast. -/
theorem no_default_scope_fails_fast_witness :
    SyncGroups (envClient testEnvNoDefault) () "example.com" =
      ((), [ApiCall.listOrganizations],
       Except.error "default organization not found") :=
  no_default_scope_fails_fast (envClient testEnvNoDefault) () "example.com"
    (by decide)

/-! ## Claim theorems: the eligibility filter (C9) -/

/-- C9: a user who is not OIDC or whose email is outside the configured
domain is transparent to the per-user loop: removing the user from the user
list changes nothing — no Google fetch, no membership fetch (the trace is
the same), no change-set contribution, and the eligible-user count is the
same. -/
theorem ineligible_user_skipped {σ : Type} (c : Client σ) (s : σ)
    (dId domain : String) (u : CoderUser)
    (h : eligibleUser domain u = false) (us1 us2 : List CoderUser)
    (ch : ChangeGroupRequests) (n : Nat) (tr : List ApiCall) :
    perUserLoop c s dId domain (us1 ++ u :: us2) ch n tr =
      perUserLoop c s dId domain (us1 ++ us2) ch n tr := by
  induction us1 generalizing ch n tr with
  | nil =>
    simp only [List.nil_append]
    rw [eligibleUser] at h
    by_cases h1 : u.loginType = LoginTypeOIDC
    · have h2 : stringHasSuffix u.email ("@" ++ domain) = false := by
        simpa [h1] using h
      simp [perUserLoop, h1, h2]
    · simp [perUserLoop, h1]
  | cons v rest ih =>
    simp only [List.cons_append, perUserLoop]
    by_cases h1 : v.loginType ≠ LoginTypeOIDC
    · simp [h1, ih]
    · by_cases h2 : ¬ stringHasSuffix v.email ("@" ++ domain)
      · simp [h1, h2, ih]
      · simp [h1, h2, ih]

/-- A non-OIDC user, for the C9 witness. -/
def testPasswordUser : CoderUser :=
  { id := "u9", username := "bob", email := "bob@example.com",
    loginType := "password" }

/-- Witness for C9: a concrete ineligible user in the middle of the user
list leaves the loop's outcome unchanged. -/
theorem ineligible_user_skipped_witness :
    perUserLoop (envClient testEnvNoDefault) () "org1" "example.com"
        ([] ++ testPasswordUser :: []) [] 0 [] =
      perUserLoop (envClient testEnvNoDefault) () "org1" "example.com"
        ([] ++ []) [] 0 [] :=
  ineligible_user_skipped (envClient testEnvNoDefault) () "org1"
    "example.com" testPasswordUser (by decide) [] [] [] 0 []

/-! ## Per-user-loop bookkeeping: eligible-user count and fetch trace -/

/-- The read-only API calls the per-user loop makes, in order: for each
eligible user, the Google-group fetch and the membership fetch. -/
def userFetchCalls (domain : String) : List CoderUser → List ApiCall
  | [] => []
  | u :: rest =>
    if eligibleUser domain u then
      ApiCall.listGoogleGroups u.email ::
        ApiCall.listGroups { hasMember := u.username } ::
          userFetchCalls domain rest
    else userFetchCalls domain rest

theorem perUserLoop_count_trace {σ : Type} (c : Client σ) (s : σ)
    (dId domain : String) :
    ∀ (users : List CoderUser) (ch : ChangeGroupRequests) (n : Nat)
      (tr : List ApiCall),
      (perUserLoop c s dId domain users ch n tr).2.1 =
        n + users.countP (eligibleUser domain) ∧
      (perUserLoop c s dId domain users ch n tr).2.2 =
        tr ++ userFetchCalls domain users := by
  intro users
  induction users with
  | nil => intro ch n tr; simp [perUserLoop, userFetchCalls]
  | cons u rest ih =>
    intro ch n tr
    by_cases h1 : u.loginType = LoginTypeOIDC
    · by_cases h2 : stringHasSuffix u.email ("@" ++ domain) = true
      · have he : eligibleUser domain u = true := by
          simp [eligibleUser, h1, h2]
        constructor
        · simp only [perUserLoop, h1, h2]
          simp [h1, h2, (ih _ (n + 1) _).1, List.countP_cons, he,
            Nat.add_comm, Nat.add_assoc, Nat.add_left_comm]
        · simp only [perUserLoop, h1, h2]
          simp [h1, h2, (ih _ (n + 1) _).2, userFetchCalls, he]
      · have he : eligibleUser domain u = false := by
          simp [eligibleUser, h1]
          simpa using h2
        simp [perUserLoop, h1, h2, ih _ n tr, userFetchCalls, he,
          List.countP_cons]
    · have he : eligibleUser domain u = false := by
        simp [eligibleUser, h1]
      simp [perUserLoop, h1, ih _ n tr, userFetchCalls, he,
        List.countP_cons]

theorem userFetchCalls_no_mutation (domain : String)
    (users : List CoderUser) :
    (userFetchCalls domain users).filter ApiCall.isMutation = [] := by
  induction users with
  | nil => simp [userFetchCalls]
  | cons u rest ih =>
    by_cases h : eligibleUser domain u
    · simp [userFetchCalls, h, ih, ApiCall.isMutation]
    · simp [userFetchCalls, h, ih]

/-! ## Claim theorems: the "no changes" report (C5) -/

/-- C5: in a completed run, the "No changes to make, all N OIDC users …"
report is emitted exactly when the change set is empty right after the
per-user diff loop; in that case nothing was created, nothing was applied
(the final change set is empty, the adapter state is untouched and the
trace holds no mutating call), and the reported N is the number of
eligible users. -/
theorem no_changes_report {σ : Type} (c : Client σ) (s : σ) (domain : String)
    (s' : σ) (tr : List ApiCall) (r : SyncReport)
    (h : SyncGroups c s domain = (s', tr, Except.ok r)) :
    (r.noChanges = true ↔ r.changesAfterDiff = []) ∧
    (r.noChanges = true →
       r.createdGroups = [] ∧ r.finalChanges = [] ∧ s' = s ∧
       tr.filter ApiCall.isMutation = [] ∧
       r.oidcUserCount = (c.listUsers s).countP (eligibleUser domain)) := by
  simp only [SyncGroups] at h
  split at h
  · simp at h
  · rename_i d hd
    simp only [syncAfterDefault] at h
    split at h
    · rename_i hemp
      simp only [Prod.mk.injEq, Except.ok.injEq] at h
      obtain ⟨hs, htr, hr⟩ := h
      rw [List.isEmpty_iff] at hemp
      subst hr
      refine ⟨by simp [hemp], fun _ => ⟨rfl, by simp [hemp], hs.symm, ?_, ?_⟩⟩
      · rw [← htr, (perUserLoop_count_trace c s d.id domain _ _ _ _).2]
        simp [trInit, ApiCall.isMutation, userFetchCalls_no_mutation]
      · simp only [(perUserLoop_count_trace c s d.id domain _ _ _ _).1,
          Nat.zero_add]
    · rename_i hemp
      split at h
      · simp at h
      · simp only [Prod.mk.injEq, Except.ok.injEq] at h
        obtain ⟨hs, htr, hr⟩ := h
        rw [List.isEmpty_iff] at hemp
        subst hr
        exact ⟨by simp [hemp], by simp⟩

/-- A stateless adapter in steady state (no users at all), for the C5
witness. -/
def testEnvSteady : Env where
  organizations := [{ id := "org1", isDefault := true }]
  groupsAnswer := fun _ => []
  users := []
  googleGroupsOf := fun _ => []
  createGroupResult := fun _ _ => none
  patchGroupResult := fun _ _ => false

/-- The report of the steady-state run on `testEnvSteady`. -/
def steadyReport : SyncReport :=
  { oidcUserCount := 0, noChanges := true, changesAfterDiff := [],
    createdGroups := [], finalChanges := [] }

/-- The trace of the steady-state run on `testEnvSteady`. -/
def steadyTrace : List ApiCall :=
  [ApiCall.listOrganizations,
   ApiCall.listGroups { organization := "org1" }, ApiCall.listUsers]

/-- Witness for C5: the steady-state run on a concrete adapter reports "no
changes" with zero effects. -/
theorem no_changes_report_witness :
    (steadyReport.noChanges = true ↔ steadyReport.changesAfterDiff = []) ∧
    (steadyReport.noChanges = true →
       steadyReport.createdGroups = [] ∧ steadyReport.finalChanges = [] ∧
       () = () ∧ steadyTrace.filter ApiCall.isMutation = [] ∧
       steadyReport.oidcUserCount =
         ((envClient testEnvSteady).listUsers ()).countP
           (eligibleUser "example.com")) :=
  no_changes_report (envClient testEnvSteady) () "example.com" () steadyTrace
    steadyReport rfl

/-! ## Trace shapes of the creation and application loops -/

theorem createLoop_trace_shape {σ : Type} (c : Client σ) (orgId : String) :
    ∀ (ks : List String) (s : σ) (gm : List (String × CoderGroup))
      (ch : ChangeGroupRequests) (created : List CoderGroup)
      (tr : List ApiCall),
      ∃ extra,
        (createMissingGroupsLoop c orgId ks s gm ch created tr).2.2.2.2 =
          tr ++ extra ∧
        ∀ a ∈ extra, ∃ req, a = ApiCall.createGroup orgId req := by
  intro ks
  induction ks with
  | nil => intro s gm ch created tr; exact ⟨[], by simp [createMissingGroupsLoop], by simp⟩
  | cons g rest ih =>
    intro s gm ch created tr
    simp only [createMissingGroupsLoop]
    cases hfind : alFind gm g with
    | some G => exact ih s gm ch created tr
    | none =>
      cases hres : (c.createGroup s orgId (mkCreateGroupRequest g)).2 with
      | none =>
        obtain ⟨extra, hex, hall⟩ := ih (c.createGroup s orgId
          (mkCreateGroupRequest g)).1 gm (alErase ch g) created
          (tr ++ [ApiCall.createGroup orgId (mkCreateGroupRequest g)])
        refine ⟨ApiCall.createGroup orgId (mkCreateGroupRequest g) :: extra,
          ?_, ?_⟩
        · simpa using hex
        · intro a ha
          rcases List.mem_cons.mp ha with h | h
          · exact ⟨_, h⟩
          · exact hall a h
      | some ng =>
        obtain ⟨extra, hex, hall⟩ := ih (c.createGroup s orgId
          (mkCreateGroupRequest g)).1 (alInsert gm g ng) ch
          (created ++ [ng])
          (tr ++ [ApiCall.createGroup orgId (mkCreateGroupRequest g)])
        refine ⟨ApiCall.createGroup orgId (mkCreateGroupRequest g) :: extra,
          ?_, ?_⟩
        · simpa using hex
        · intro a ha
          rcases List.mem_cons.mp ha with h | h
          · exact ⟨_, h⟩
          · exact hall a h

theorem applyLoop_trace_shape {σ : Type} (c : Client σ) :
    ∀ (entries : ChangeGroupRequests) (s : σ)
      (gm : List (String × CoderGroup)) (tr : List ApiCall),
      ∃ extra,
        (applyGroupChangesLoop c entries s gm tr).2.1 = tr ++ extra ∧
        ∀ a ∈ extra, ∃ gid req, a = ApiCall.patchGroup gid req := by
  intro entries
  induction entries with
  | nil => intro s gm tr; exact ⟨[], by simp [applyGroupChangesLoop], by simp⟩
  | cons e rest ih =>
    intro s gm tr
    obtain ⟨g, req⟩ := e
    simp only [applyGroupChangesLoop]
    cases hfind : alFind gm g with
    | none => exact ⟨[], by simp, by simp⟩
    | some G =>
      dsimp only
      cases hok : (c.patchGroup s G.id req).2 with
      | true =>
        obtain ⟨extra, hex, hall⟩ := ih (c.patchGroup s G.id req).1 gm
          (tr ++ [ApiCall.patchGroup G.id req])
        refine ⟨ApiCall.patchGroup G.id req :: extra, ?_, ?_⟩
        · simpa using hex
        · intro a ha
          rcases List.mem_cons.mp ha with h | h
          · exact ⟨_, _, h⟩
          · exact hall a h
      | false =>
        refine ⟨[ApiCall.patchGroup G.id req], ?_, ?_⟩
        · simp
        · intro a ha
          rw [List.mem_singleton] at ha
          exact ⟨_, _, ha⟩

theorem mem_userFetchCalls (domain : String) (users : List CoderUser)
    (a : ApiCall) (h : a ∈ userFetchCalls domain users) :
    ∃ u, u ∈ users ∧ eligibleUser domain u = true ∧
      (a = ApiCall.listGoogleGroups u.email ∨
       a = ApiCall.listGroups { hasMember := u.username }) := by
  induction users with
  | nil => simp [userFetchCalls] at h
  | cons u rest ih =>
    by_cases he : eligibleUser domain u
    · rw [userFetchCalls, if_pos he] at h
      rcases List.mem_cons.mp h with h1 | h1
      · exact ⟨u, by simp, he, Or.inl h1⟩
      · rcases List.mem_cons.mp h1 with h2 | h2
        · exact ⟨u, by simp, he, Or.inr h2⟩
        · obtain ⟨v, hv, hve, hva⟩ := ih h2
          exact ⟨v, by simp [hv], hve, hva⟩
    · rw [userFetchCalls, if_neg he] at h
      obtain ⟨v, hv, hve, hva⟩ := ih h
      exact ⟨v, by simp [hv], hve, hva⟩

theorem createMissingGroups_trace_shape {σ : Type} (c : Client σ) (s : σ)
    (orgId : String) (gm : List (String × CoderGroup))
    (ch : ChangeGroupRequests) (tr : List ApiCall) :
    ∃ extra,
      (createMissingGroups c s orgId gm ch tr).2.2.2.2 = tr ++ extra ∧
      ∀ a ∈ extra, ∃ req, a = ApiCall.createGroup orgId req := by
  rw [createMissingGroups]
  exact createLoop_trace_shape c orgId (ChangeGroupRequests.keys ch) s gm ch
    [] tr

/-- The full trace of a run that found a default organization: the three
snapshot reads, then the per-user fetches, then creation calls scoped to
the default organization, then patch calls. -/
theorem syncGroups_trace_split {σ : Type} (c : Client σ) (s : σ)
    (domain : String) (d : Organization)
    (hdef : defaultOrganization (c.listOrganizations s) = some d) :
    ∃ extraC extraP,
      (SyncGroups c s domain).2.1 =
        trInit d ++ userFetchCalls domain (c.listUsers s) ++
          extraC ++ extraP ∧
      (∀ a ∈ extraC, ∃ req, a = ApiCall.createGroup d.id req) ∧
      (∀ a ∈ extraP, ∃ gid req, a = ApiCall.patchGroup gid req) := by
  simp only [SyncGroups, hdef]
  simp only [syncAfterDefault]
  have htr2 := (perUserLoop_count_trace c s d.id domain (c.listUsers s) []
    0 (trInit d)).2
  cases hemp :
      (perUserLoop c s d.id domain (c.listUsers s) [] 0 (trInit d)).1.isEmpty
    with
  | true =>
    refine ⟨[], [], ?_, by simp, by simp⟩
    simpa using htr2
  | false =>
    set diffed := perUserLoop c s d.id domain (c.listUsers s) [] 0 (trInit d)
      with hdf
    set gmv := buildGroupMap (c.listGroups s { organization := d.id })
      with hgm
    set createRes := createMissingGroups c s d.id gmv diffed.1 diffed.2.2
      with hcr
    set applyRes := applyGroupChangesLoop c createRes.2.2.1 createRes.1
      createRes.2.1 createRes.2.2.2.2 with har
    obtain ⟨eC, heC, heCall⟩ :=
      createMissingGroups_trace_shape c s d.id gmv diffed.1 diffed.2.2
    rw [← hcr] at heC
    obtain ⟨eP, heP, hePall⟩ := applyLoop_trace_shape c createRes.2.2.1
      createRes.1 createRes.2.1 createRes.2.2.2.2
    rw [← har] at heP
    refine ⟨eC, eP, ?_, heCall, hePall⟩
    cases hA : applyRes.2.2 with
    | some e =>
      dsimp only
      rw [heP, heC, htr2]
      simp [List.append_assoc]
    | none =>
      dsimp only
      rw [heP, heC, htr2]
      simp [List.append_assoc]

/-! ## Claim C6: which scope each call carries -/

/-- C6 as the code has it (amended): the snapshot group listing carries the
default organization's ID and every group creation is scoped to it, but the
per-user membership listing carries only the user's handle — its
organization filter is empty, not the default scope's ID. -/
theorem scope_bounded_calls_amended {σ : Type} (c : Client σ) (s : σ)
    (domain : String) (d : Organization)
    (hdef : defaultOrganization (c.listOrganizations s) = some d) :
    (∀ args, ApiCall.listGroups args ∈ (SyncGroups c s domain).2.1 →
       args = { organization := d.id, hasMember := "" } ∨
       ∃ u, u ∈ c.listUsers s ∧ eligibleUser domain u = true ∧
         args = { organization := "", hasMember := u.username }) ∧
    (∀ orgId req,
       ApiCall.createGroup orgId req ∈ (SyncGroups c s domain).2.1 →
       orgId = d.id) := by
  obtain ⟨eC, eP, htr, hCall, hPall⟩ := syncGroups_trace_split c s domain d
    hdef
  constructor
  · intro args hmem
    rw [htr] at hmem
    simp only [List.mem_append] at hmem
    rcases hmem with ((h1 | h2) | h3) | h4
    · left
      simp only [trInit, List.mem_cons, List.mem_singleton] at h1
      rcases h1 with h | h | h
      · exact absurd h (by simp)
      · injection h with h
      · exact absurd h (by simp)
    · right
      obtain ⟨u, hu, hue, hua⟩ := mem_userFetchCalls domain _ _ h2
      rcases hua with h | h
      · exact absurd h (by simp)
      · injection h with h
        exact ⟨u, hu, hue, h⟩
    · obtain ⟨req, hreq⟩ := hCall _ h3
      exact absurd hreq (by simp)
    · obtain ⟨gid, req, hreq⟩ := hPall _ h4
      exact absurd hreq (by simp)
  · intro orgId req hmem
    rw [htr] at hmem
    simp only [List.mem_append] at hmem
    rcases hmem with ((h1 | h2) | h3) | h4
    · simp [trInit] at h1
    · obtain ⟨u, hu, hue, hua⟩ := mem_userFetchCalls domain _ _ h2
      rcases hua with h | h
      · exact absurd h (by simp)
      · exact absurd h (by simp)
    · obtain ⟨req', hreq⟩ := hCall _ h3
      injection hreq with h1 h2
    · obtain ⟨gid, req', hreq⟩ := hPall _ h4
      exact absurd hreq (by simp)

/-- Witness for the amended C6 at a concrete adapter. -/
theorem scope_bounded_calls_amended_witness :
    (∀ args,
       ApiCall.listGroups args ∈
         (SyncGroups (envClient testEnvSteady) () "example.com").2.1 →
       args = { organization := "org1", hasMember := "" } ∨
       ∃ u, u ∈ (envClient testEnvSteady).listUsers () ∧
         eligibleUser "example.com" u = true ∧
         args = { organization := "", hasMember := u.username }) ∧
    (∀ orgId req,
       ApiCall.createGroup orgId req ∈
         (SyncGroups (envClient testEnvSteady) () "example.com").2.1 →
       orgId = "org1") :=
  scope_bounded_calls_amended (envClient testEnvSteady) () "example.com"
    { id := "org1", isDefault := true } (by decide)

/-- A world whose only group lives outside the default organization, while
its member alice is an eligible user with no Google groups: the engine's
per-user listing still returns it, so the Actual set is not bounded to the
default scope. -/
def testCrossOrgWorld : World where
  organizations := [{ id := "org1", isDefault := true }]
  groups := [{ id := "g2", orgId := "org2", name := "foreign",
               members := ["u1"] }]
  users := [{ id := "u1", username := "alice", email := "alice@example.com",
              loginType := "oidc" }]
  googleGroupsOf := fun _ => []

/-! ## Creation-loop and application-loop characterizations -/

theorem createLoop_gm_monotone {σ : Type} (c : Client σ) (orgId : String) :
    ∀ (ks : List String) (s : σ) (gm : List (String × CoderGroup))
      (ch : ChangeGroupRequests) (created : List CoderGroup)
      (tr : List ApiCall) (g : String),
      (alFind gm g).isSome = true →
      (alFind (createMissingGroupsLoop c orgId ks s gm ch created tr).2.1
          g).isSome = true := by
  intro ks
  induction ks with
  | nil =>
    intro s gm ch created tr g h
    simpa [createMissingGroupsLoop] using h
  | cons k rest ih =>
    intro s gm ch created tr g h
    simp only [createMissingGroupsLoop]
    cases hfind : alFind gm k with
    | some G => exact ih s gm ch created tr g h
    | none =>
      cases hres : (c.createGroup s orgId (mkCreateGroupRequest k)).2 with
      | none => exact ih _ gm (alErase ch k) created _ g h
      | some ng =>
        refine ih _ (alInsert gm k ng) ch (created ++ [ng]) _ g ?_
        by_cases hkg : g = k
        · subst hkg
          simp [alFind_alInsert_self]
        · rw [alFind_alInsert_ne gm k g ng hkg]
          exact h

/-- When creating `gf` always fails and creating any other group always
succeeds, the creation loop's change set comes out exactly as the input
with `gf`'s entry deleted when `gf` was a missing key, and untouched
otherwise — no other entry is ever dropped. -/
theorem createLoop_changes_one_failure {σ : Type} (c : Client σ)
    (orgId gf : String)
    (hfail : ∀ st : σ,
      (c.createGroup st orgId (mkCreateGroupRequest gf)).2 = none)
    (hothers : ∀ (st : σ) (g : String), g ≠ gf →
      (c.createGroup st orgId (mkCreateGroupRequest g)).2.isSome = true) :
    ∀ (ks : List String) (s : σ) (gm : List (String × CoderGroup))
      (ch : ChangeGroupRequests) (created : List CoderGroup)
      (tr : List ApiCall),
      (createMissingGroupsLoop c orgId ks s gm ch created tr).2.2.1 =
        (if gf ∈ ks ∧ alFind gm gf = none then alErase ch gf else ch) := by
  intro ks
  induction ks with
  | nil =>
    intro s gm ch created tr
    simp [createMissingGroupsLoop]
  | cons k rest ih =>
    intro s gm ch created tr
    simp only [createMissingGroupsLoop]
    by_cases hkg : k = gf
    · subst hkg
      cases hfind : alFind gm k with
      | some G =>
        rw [ih]
        simp [hfind]
      | none =>
        have hres := hfail s
        cases hres2 : (c.createGroup s orgId (mkCreateGroupRequest k)).2 with
        | some ng => rw [hres] at hres2; exact absurd hres2 (by simp)
        | none =>
          rw [ih]
          by_cases hmem : k ∈ rest
          · simp [hmem, hfind, alErase_alErase]
          · simp [hmem, hfind]
    · have hgfk : ¬ gf = k := fun h => hkg h.symm
      cases hfind : alFind gm k with
      | some G =>
        rw [ih]
        simp [List.mem_cons, hgfk]
      | none =>
        have hsome := hothers s k hkg
        cases hres2 : (c.createGroup s orgId (mkCreateGroupRequest k)).2 with
        | none => rw [hres2] at hsome; exact absurd hsome (by simp)
        | some ng =>
          rw [ih]
          rw [alFind_alInsert_ne gm k gf ng hgfk]
          simp [List.mem_cons, hgfk]

/-- When every needed creation succeeds (`gf` triggering the only failure),
every key of the loop's input except `gf` is resolvable in the loop's final
group map, provided it was a processed key or already present. -/
theorem createLoop_resolves {σ : Type} (c : Client σ) (orgId gf : String)
    (hothers : ∀ (st : σ) (g : String), g ≠ gf →
      (c.createGroup st orgId (mkCreateGroupRequest g)).2.isSome = true) :
    ∀ (ks : List String) (s : σ) (gm : List (String × CoderGroup))
      (ch : ChangeGroupRequests) (created : List CoderGroup)
      (tr : List ApiCall) (g : String),
      g ∈ ks → g ≠ gf →
      (alFind (createMissingGroupsLoop c orgId ks s gm ch created tr).2.1
          g).isSome = true := by
  intro ks
  induction ks with
  | nil =>
    intro s gm ch created tr g hmem
    simp at hmem
  | cons k rest ih =>
    intro s gm ch created tr g hmem hg
    simp only [createMissingGroupsLoop]
    cases hfind : alFind gm k with
    | some G =>
      rcases List.mem_cons.mp hmem with h | h
      · subst h
        exact createLoop_gm_monotone c orgId rest s gm ch created tr g
          (by simp [hfind])
      · exact ih s gm ch created tr g h hg
    | none =>
      by_cases hkg : k = gf
      · subst hkg
        rcases List.mem_cons.mp hmem with h | h
        · exact absurd h hg
        · cases hres2 : (c.createGroup s orgId (mkCreateGroupRequest k)).2
            with
          | none => exact ih _ gm (alErase ch k) created _ g h hg
          | some ng =>
            exact ih _ (alInsert gm k ng) ch (created ++ [ng]) _ g h hg
      · have hsome := hothers s k hkg
        cases hres2 : (c.createGroup s orgId (mkCreateGroupRequest k)).2 with
        | none =>
          rw [hres2] at hsome
          exact absurd hsome (by simp)
        | some ng =>
          rcases List.mem_cons.mp hmem with h | h
          · subst h
            exact createLoop_gm_monotone c orgId rest
              (c.createGroup s orgId (mkCreateGroupRequest g)).1
              (alInsert gm g ng) ch (created ++ [ng])
              (tr ++ [ApiCall.createGroup orgId (mkCreateGroupRequest g)]) g
              (by simp [alFind_alInsert_self])
          · exact ih (c.createGroup s orgId (mkCreateGroupRequest k)).1
              (alInsert gm k ng) ch (created ++ [ng])
              (tr ++ [ApiCall.createGroup orgId (mkCreateGroupRequest k)]) g
              h hg

theorem mem_alErase {α : Type} (m : List (String × α)) (k : String)
    (p : String × α) : p ∈ alErase m k ↔ p ∈ m ∧ p.1 ≠ k := by
  induction m with
  | nil => simp [alErase]
  | cons q rest ih =>
    by_cases h : q.1 = k
    · rw [alErase, if_pos h, ih]
      constructor
      · rintro ⟨hp, hpk⟩
        exact ⟨List.mem_cons_of_mem q hp, hpk⟩
      · rintro ⟨hp, hpk⟩
        rcases List.mem_cons.mp hp with h2 | h2
        · subst h2
          exact absurd h hpk
        · exact ⟨h2, hpk⟩
    · rw [alErase, if_neg h]
      constructor
      · intro hp
        rcases List.mem_cons.mp hp with h2 | h2
        · subst h2
          exact ⟨List.mem_cons_self p rest, h⟩
        · obtain ⟨hm, hk⟩ := ih.mp h2
          exact ⟨List.mem_cons_of_mem q hm, hk⟩
      · rintro ⟨hp, hpk⟩
        rcases List.mem_cons.mp hp with h2 | h2
        · subst h2
          exact List.mem_cons_self p (alErase rest k)
        · exact List.mem_cons_of_mem q (ih.mpr ⟨h2, hpk⟩)

/-- When every patch succeeds and every entry's group resolves in the group
map, the application loop finishes without a fatal error and issues exactly
one patch per entry, in order. -/
theorem applyLoop_all_ok {σ : Type} (c : Client σ)
    (hpatch : ∀ (st : σ) (gid : String) (req : PatchGroupRequest),
      (c.patchGroup st gid req).2 = true) :
    ∀ (entries : ChangeGroupRequests) (s : σ)
      (gm : List (String × CoderGroup)) (tr : List ApiCall),
      (∀ p ∈ entries, (alFind gm p.1).isSome = true) →
      (applyGroupChangesLoop c entries s gm tr).2.2 = none ∧
      (applyGroupChangesLoop c entries s gm tr).2.1 =
        tr ++ entries.map (fun p =>
          ApiCall.patchGroup
            ((alFind gm p.1).getD { id := "", name := "" }).id p.2) := by
  intro entries
  induction entries with
  | nil =>
    intro s gm tr hres
    simp [applyGroupChangesLoop]
  | cons e rest ih =>
    intro s gm tr hres
    obtain ⟨g, req⟩ := e
    simp only [applyGroupChangesLoop]
    cases hfind : alFind gm g with
    | none =>
      have := hres (g, req) (List.mem_cons_self _ _)
      rw [hfind] at this
      simp at this
    | some G =>
      dsimp only
      have hok := hpatch s G.id req
      obtain ⟨h1, h2⟩ := ih (c.patchGroup s G.id req).1 gm
        (tr ++ [ApiCall.patchGroup G.id req])
        (fun p hp => hres p (List.mem_cons_of_mem _ hp))
      rw [hok]
      constructor
      · simpa using h1
      · rw [if_pos rfl, h2]
        simp [hfind]

/-! ## Claim C7: group-creation failure isolation -/

/-- C7: when creating the missing group `gf` fails while every other
creation and every patch succeeds, the run still completes with a report:
`gf`'s entire entry is dropped from the final change set, every other
group's entry is exactly as the diff loop left it and still receives its
membership patch, and every patch issued stems from a non-`gf` entry. -/
theorem creation_failure_isolated (e : Env) (domain : String)
    (d : Organization) (gf : String)
    (hdef : defaultOrganization e.organizations = some d)
    (hmiss : alFind (buildGroupMap
      (e.groupsAnswer { organization := d.id })) gf = none)
    (hfail : e.createGroupResult d.id (mkCreateGroupRequest gf) = none)
    (hothers : ∀ g, g ≠ gf →
      (e.createGroupResult d.id (mkCreateGroupRequest g)).isSome = true)
    (hpatch : ∀ gid req, e.patchGroupResult gid req = true) :
    ∃ tr r, SyncGroups (envClient e) () domain = ((), tr, Except.ok r) ∧
      ChangeGroupRequests.find r.finalChanges gf = none ∧
      (∀ g, g ≠ gf →
         ChangeGroupRequests.find r.finalChanges g =
           ChangeGroupRequests.find r.changesAfterDiff g) ∧
      gf ∉ ChangeGroupRequests.keys r.finalChanges ∧
      (∀ gid req, ApiCall.patchGroup gid req ∈ tr →
         ∃ p, p ∈ r.finalChanges ∧ p.2 = req ∧ p.1 ≠ gf) ∧
      (∀ p ∈ r.finalChanges, ∃ gid, ApiCall.patchGroup gid p.2 ∈ tr) := by
  have hdefE : defaultOrganization ((envClient e).listOrganizations ()) =
      some d := hdef
  simp only [SyncGroups, hdefE]
  simp only [syncAfterDefault]
  have htr2 := (perUserLoop_count_trace (envClient e) () d.id domain
    ((envClient e).listUsers ()) [] 0 (trInit d)).2
  cases hemp : (perUserLoop (envClient e) () d.id domain
      ((envClient e).listUsers ()) [] 0 (trInit d)).1.isEmpty with
  | true =>
    rw [List.isEmpty_iff] at hemp
    refine ⟨_, _, rfl, ?_, ?_, ?_, ?_, ?_⟩
    · simp [ChangeGroupRequests.find, hemp, alFind]
    · intro g hg
      rfl
    · simp [ChangeGroupRequests.keys, hemp]
    · intro gid req hmem
      rw [htr2] at hmem
      rcases List.mem_append.mp hmem with h3 | h3
      · simp [trInit] at h3
      · obtain ⟨u, _, _, hua⟩ := mem_userFetchCalls domain _ _ h3
        rcases hua with h4 | h4 <;> simp at h4
    · intro p hp
      rw [hemp] at hp
      simp at hp
  | false =>
    set diffed := perUserLoop (envClient e) () d.id domain
      ((envClient e).listUsers ()) [] 0 (trInit d) with hdf
    set gmv := buildGroupMap ((envClient e).listGroups ()
      { organization := d.id }) with hgm
    set createRes := createMissingGroups (envClient e) () d.id gmv diffed.1
      diffed.2.2 with hcr
    set applyRes := applyGroupChangesLoop (envClient e) createRes.2.2.1
      createRes.1 createRes.2.1 createRes.2.2.2.2 with har
    have hfailC : ∀ st : Unit,
        ((envClient e).createGroup st d.id (mkCreateGroupRequest gf)).2 =
          none := fun _ => hfail
    have hothersC : ∀ (st : Unit) (g : String), g ≠ gf →
        ((envClient e).createGroup st d.id
          (mkCreateGroupRequest g)).2.isSome = true :=
      fun _ g hg => hothers g hg
    have hpatchC : ∀ (st : Unit) (gid : String) (req : PatchGroupRequest),
        ((envClient e).patchGroup st gid req).2 = true :=
      fun _ gid req => hpatch gid req
    have hmissv : alFind gmv gf = none := hmiss
    have hch : createRes.2.2.1 =
        (if gf ∈ ChangeGroupRequests.keys diffed.1 ∧ alFind gmv gf = none
         then alErase diffed.1 gf else diffed.1) :=
      createLoop_changes_one_failure (envClient e) d.id gf hfailC hothersC
        (ChangeGroupRequests.keys diffed.1) () gmv diffed.1 [] diffed.2.2
    have hchsplit : createRes.2.2.1 = alErase diffed.1 gf ∨
        (createRes.2.2.1 = diffed.1 ∧
         gf ∉ ChangeGroupRequests.keys diffed.1) := by
      rw [hch]
      by_cases hmem : gf ∈ ChangeGroupRequests.keys diffed.1
      · left
        simp [hmem, hmissv]
      · right
        simp [hmem]
    have hnkeys : gf ∉ ChangeGroupRequests.keys createRes.2.2.1 := by
      rcases hchsplit with h | ⟨h, hnk⟩
      · rw [h]
        intro hmem
        obtain ⟨p, hp, hp1⟩ := List.mem_map.mp hmem
        exact ((mem_alErase _ _ _).mp hp).2 hp1
      · rw [h]
        exact hnk
    have hres : ∀ p ∈ createRes.2.2.1,
        (alFind createRes.2.1 p.1).isSome = true := by
      intro p hp
      have hkey : p ∈ diffed.1 ∧ p.1 ≠ gf := by
        rcases hchsplit with h | ⟨h, hnk⟩
        · rw [h] at hp
          exact (mem_alErase _ _ _).mp hp
        · rw [h] at hp
          refine ⟨hp, fun hEq => hnk ?_⟩
          rw [← hEq]
          exact List.mem_map_of_mem _ hp
      exact createLoop_resolves (envClient e) d.id gf hothersC
        (ChangeGroupRequests.keys diffed.1) () gmv diffed.1 [] diffed.2.2
        p.1 (List.mem_map_of_mem _ hkey.1) hkey.2
    obtain ⟨hnone, htrP⟩ := applyLoop_all_ok (envClient e) hpatchC
      createRes.2.2.1 createRes.1 createRes.2.1 createRes.2.2.2.2 hres
    rw [← har] at hnone htrP
    rw [hnone]
    refine ⟨applyRes.2.1,
      { oidcUserCount := diffed.2.1, noChanges := false,
        changesAfterDiff := diffed.1, createdGroups := createRes.2.2.2.1,
        finalChanges := createRes.2.2.1 }, rfl, ?_, ?_, ?_, ?_, ?_⟩
    · rcases hchsplit with h | ⟨h, hnk⟩
      · rw [ChangeGroupRequests.find, h]
        exact alFind_alErase_self _ _
      · rw [ChangeGroupRequests.find, h]
        exact (alFind_eq_none_iff _ _).mpr hnk
    · intro g hg
      rcases hchsplit with h | ⟨h, _⟩
      · rw [ChangeGroupRequests.find, ChangeGroupRequests.find, h]
        exact alFind_alErase_ne _ _ _ hg
      · rw [h]
    · exact hnkeys
    · intro gid req hmem
      rw [htrP] at hmem
      rcases List.mem_append.mp hmem with h | h
      · obtain ⟨eC, heC, heCall⟩ := createMissingGroups_trace_shape
          (envClient e) () d.id gmv diffed.1 diffed.2.2
        rw [← hcr] at heC
        rw [heC] at h
        rcases List.mem_append.mp h with h2 | h2
        · rw [htr2] at h2
          rcases List.mem_append.mp h2 with h3 | h3
          · simp [trInit] at h3
          · obtain ⟨u, _, _, hua⟩ := mem_userFetchCalls domain _ _ h3
            rcases hua with h4 | h4 <;> simp at h4
        · obtain ⟨req2, hreq2⟩ := heCall _ h2
          simp at hreq2
      · obtain ⟨p, hp, hpe⟩ := List.mem_map.mp h
        injection hpe with h1 h2
        refine ⟨p, hp, h2, fun hEq => hnkeys ?_⟩
        rw [← hEq]
        exact List.mem_map_of_mem _ hp
    · intro p hp
      refine ⟨((alFind createRes.2.1 p.1).getD { id := "", name := "" }).id,
        ?_⟩
      rw [htrP]
      exact List.mem_append_right _ (List.mem_map_of_mem _ hp)

/-- C6 counterexample: on `testCrossOrgWorld` the per-user membership
listing is issued with an empty organization filter (not the default
scope's ID `"org1"`), and the group `"foreign"` — which belongs to
organization `"org2"` — flows into the computed change set as a removal,
so the Actual set contained a group outside the default scope. -/
theorem scope_bounded_calls_counterexample :
    ApiCall.listGroups { organization := "", hasMember := "alice" } ∈
      (SyncGroups worldClient testCrossOrgWorld "example.com").2.1 ∧
    ({ organization := "", hasMember := "alice" } :
        GroupArguments).organization ≠ "org1" ∧
    (match (SyncGroups worldClient testCrossOrgWorld "example.com").2.2 with
     | Except.ok r => ChangeGroupRequests.find r.changesAfterDiff "foreign"
     | Except.error _ => none) =
      some { AddUsers := [], RemoveUsers := ["u1"] } ∧
    testCrossOrgWorld.groups.map (fun g => g.orgId) = ["org2"] := by
  refine ⟨by decide, by decide, by decide, by decide⟩

/-! ## Characterizing the accumulated change set

`mergeEntry` describes how a change-set entry grows: appending user IDs to
the add list and the remove list, creating the entry on first touch. -/

/-- Append `as` and `rs` to an optional entry, creating it when needed. -/
def mergeEntry (o : Option PatchGroupRequest) (as rs : List String) :
    Option PatchGroupRequest :=
  match o with
  | some r => some { AddUsers := r.AddUsers ++ as,
                     RemoveUsers := r.RemoveUsers ++ rs }
  | none =>
    if as = [] ∧ rs = [] then none
    else some { AddUsers := as, RemoveUsers := rs }

theorem mergeEntry_nil (o : Option PatchGroupRequest) :
    mergeEntry o [] [] = o := by
  cases o <;> simp [mergeEntry]

theorem mergeEntry_mergeEntry (o : Option PatchGroupRequest)
    (as1 rs1 as2 rs2 : List String) :
    mergeEntry (mergeEntry o as1 rs1) as2 rs2 =
      mergeEntry o (as1 ++ as2) (rs1 ++ rs2) := by
  cases o with
  | some r => simp [mergeEntry]
  | none =>
    by_cases h1 : as1 = []
    · by_cases h2 : rs1 = []
      · subst h1
        subst h2
        simp [mergeEntry]
      · subst h1
        simp [mergeEntry, h2]
    · simp [mergeEntry, h1]

theorem find_AddUser_merge (c : ChangeGroupRequests) (g u : String) :
    ChangeGroupRequests.find (ChangeGroupRequests.AddUser c g u) g =
      mergeEntry (ChangeGroupRequests.find c g) [u] [] := by
  rw [find_AddUser_self]
  cases h : ChangeGroupRequests.find c g <;>
    simp [ChangeGroupRequests.findD, h, mergeEntry]

theorem find_RemoveUser_merge (c : ChangeGroupRequests) (g u : String) :
    ChangeGroupRequests.find (ChangeGroupRequests.RemoveUser c g u) g =
      mergeEntry (ChangeGroupRequests.find c g) [] [u] := by
  rw [find_RemoveUser_self]
  cases h : ChangeGroupRequests.find c g <;>
    simp [ChangeGroupRequests.findD, h, mergeEntry]

theorem find_foldl_AddUser (u : String) :
    ∀ (gs : List String) (ch : ChangeGroupRequests) (g : String),
      gs.Nodup →
      ChangeGroupRequests.find
          (gs.foldl (fun ch x => ChangeGroupRequests.AddUser ch x u) ch) g =
        (if g ∈ gs then mergeEntry (ChangeGroupRequests.find ch g) [u] []
         else ChangeGroupRequests.find ch g) := by
  intro gs
  induction gs with
  | nil => intro ch g _; simp
  | cons x rest ih =>
    intro ch g hnd
    rw [List.nodup_cons] at hnd
    rw [List.foldl_cons, ih _ _ hnd.2]
    by_cases hgx : g = x
    · subst hgx
      rw [if_neg (fun h => hnd.1 h), if_pos (List.mem_cons_self g rest),
        find_AddUser_merge]
    · rw [find_AddUser_ne _ _ _ _ hgx]
      by_cases hgr : g ∈ rest
      · rw [if_pos hgr, if_pos (List.mem_cons_of_mem x hgr)]
      · rw [if_neg hgr, if_neg (by simp [hgx, hgr])]

theorem find_foldl_RemoveUser (u : String) :
    ∀ (gs : List String) (ch : ChangeGroupRequests) (g : String),
      gs.Nodup →
      ChangeGroupRequests.find
          (gs.foldl (fun ch x => ChangeGroupRequests.RemoveUser ch x u) ch)
          g =
        (if g ∈ gs then mergeEntry (ChangeGroupRequests.find ch g) [] [u]
         else ChangeGroupRequests.find ch g) := by
  intro gs
  induction gs with
  | nil => intro ch g _; simp
  | cons x rest ih =>
    intro ch g hnd
    rw [List.nodup_cons] at hnd
    rw [List.foldl_cons, ih _ _ hnd.2]
    by_cases hgx : g = x
    · subst hgx
      rw [if_neg (fun h => hnd.1 h), if_pos (List.mem_cons_self g rest),
        find_RemoveUser_merge]
    · rw [find_RemoveUser_ne _ _ _ _ hgx]
      by_cases hgr : g ∈ rest
      · rw [if_pos hgr, if_pos (List.mem_cons_of_mem x hgr)]
      · rw [if_neg hgr, if_neg (by simp [hgx, hgr])]

/-- The user IDs the per-user loop adds to group `g`, in user order: the
eligible users whose diff lists `g` on the add side. -/
def collectAdds {σ : Type} (c : Client σ) (s : σ) (dId domain : String)
    (users : List CoderUser) (g : String) : List String :=
  (users.filter (fun u =>
    eligibleUser domain u && decide (g ∈ (userDiff c s dId u).1))).map (·.id)

/-- The user IDs the per-user loop removes from group `g`, in user order. -/
def collectRems {σ : Type} (c : Client σ) (s : σ) (dId domain : String)
    (users : List CoderUser) (g : String) : List String :=
  (users.filter (fun u =>
    eligibleUser domain u && decide (g ∈ (userDiff c s dId u).2))).map (·.id)

/-- One eligible user's contribution to group `g`'s entry. -/
theorem find_userStep {σ : Type} (c : Client σ) (s : σ)
    (dId : String) (u : CoderUser) (ch : ChangeGroupRequests) (g : String) :
    ChangeGroupRequests.find
        ((userDiff c s dId u).2.foldl
          (fun ch x => ChangeGroupRequests.RemoveUser ch x u.id)
          ((userDiff c s dId u).1.foldl
            (fun ch x => ChangeGroupRequests.AddUser ch x u.id) ch)) g =
      mergeEntry (ChangeGroupRequests.find ch g)
        (if g ∈ (userDiff c s dId u).1 then [u.id] else [])
        (if g ∈ (userDiff c s dId u).2 then [u.id] else []) := by
  have hnd := nodup_symmetricDifference
    ((c.listGroups s { hasMember := u.username }).map (·.name))
    (ExpectedCoderGroups (c.listGoogleGroups s u.email) ++
      [everyoneGroupName (c.listGroups s { hasMember := u.username }) dId])
  have hdisj := symmetricDifference_disjoint
    ((c.listGroups s { hasMember := u.username }).map (·.name))
    (ExpectedCoderGroups (c.listGoogleGroups s u.email) ++
      [everyoneGroupName (c.listGroups s { hasMember := u.username }) dId]) g
  rw [find_foldl_RemoveUser u.id ((userDiff c s dId u).2) _ g
    ((nodup_symmetricDifference _ _).2),
    find_foldl_AddUser u.id ((userDiff c s dId u).1) _ g
    ((nodup_symmetricDifference _ _).1)]
  by_cases ha : g ∈ (userDiff c s dId u).1
  · have hr : g ∉ (userDiff c s dId u).2 := fun hr => hdisj ⟨ha, hr⟩
    rw [if_neg hr, if_pos ha, if_pos ha, if_neg hr]
  · by_cases hr : g ∈ (userDiff c s dId u).2
    · rw [if_pos hr, if_neg ha, if_pos hr, if_neg ha]
    · rw [if_neg hr, if_neg ha, if_neg ha, if_neg hr, mergeEntry_nil]

/-- The accumulated change set's entry for any group, as the merge of every
eligible user's contribution over the initial entry. -/
theorem perUserLoop_find {σ : Type} (c : Client σ) (s : σ)
    (dId domain : String) :
    ∀ (users : List CoderUser) (ch : ChangeGroupRequests) (n : Nat)
      (tr : List ApiCall) (g : String),
      ChangeGroupRequests.find
          (perUserLoop c s dId domain users ch n tr).1 g =
        mergeEntry (ChangeGroupRequests.find ch g)
          (collectAdds c s dId domain users g)
          (collectRems c s dId domain users g) := by
  intro users
  induction users with
  | nil =>
    intro ch n tr g
    simp [perUserLoop, collectAdds, collectRems, mergeEntry_nil]
  | cons u rest ih =>
    intro ch n tr g
    by_cases h1 : u.loginType = LoginTypeOIDC
    · by_cases h2 : stringHasSuffix u.email ("@" ++ domain) = true
      · have he : eligibleUser domain u = true := by
          simp [eligibleUser, h1, h2]
        simp only [perUserLoop]
        rw [if_neg (show ¬ u.loginType ≠ LoginTypeOIDC from by simp [h1])]
        rw [if_neg (show
          ¬ ¬ (stringHasSuffix u.email ("@" ++ domain) = true) from by
            simp [h2])]
        rw [ih, find_userStep c s dId u ch g, mergeEntry_mergeEntry]
        by_cases hca : g ∈ (userDiff c s dId u).1 <;>
          by_cases hcr : g ∈ (userDiff c s dId u).2 <;>
            simp [collectAdds, collectRems, he, hca, hcr]
      · have he : eligibleUser domain u = false := by
          simp [eligibleUser, h1]
          simpa using h2
        simp only [perUserLoop]
        rw [if_neg (show ¬ u.loginType ≠ LoginTypeOIDC from by simp [h1])]
        rw [if_pos (show
          ¬ (stringHasSuffix u.email ("@" ++ domain) = true) from by
            simpa using h2)]
        rw [ih]
        simp [collectAdds, collectRems, he]
    · have he : eligibleUser domain u = false := by
        simp [eligibleUser, h1]
      simp only [perUserLoop]
      rw [if_pos (show u.loginType ≠ LoginTypeOIDC from h1), ih]
      simp [collectAdds, collectRems, he]

/-- The change set built by the diff loop from an empty start: its entry
for any group is exactly the collected adds and removes. -/
theorem perUserLoop_findD {σ : Type} (c : Client σ) (s : σ)
    (dId domain : String) (users : List CoderUser) (n : Nat)
    (tr : List ApiCall) (g : String) :
    ChangeGroupRequests.findD (perUserLoop c s dId domain users [] n tr).1
        g =
      { AddUsers := collectAdds c s dId domain users g,
        RemoveUsers := collectRems c s dId domain users g } := by
  rw [ChangeGroupRequests.findD, perUserLoop_find]
  rw [show ChangeGroupRequests.find [] g = none from rfl]
  rw [mergeEntry]
  by_cases h : collectAdds c s dId domain users g = [] ∧
      collectRems c s dId domain users g = []
  · simp [h.1, h.2]
  · simp only [if_neg h, Option.getD_some]

/-- A group has an entry in the accumulated change set exactly when some
eligible user's diff names it. -/
theorem perUserLoop_keys {σ : Type} (c : Client σ) (s : σ)
    (dId domain : String) (users : List CoderUser) (n : Nat)
    (tr : List ApiCall) (g : String) :
    (g ∈ ChangeGroupRequests.keys
        (perUserLoop c s dId domain users [] n tr).1) ↔
      ¬ (collectAdds c s dId domain users g = [] ∧
         collectRems c s dId domain users g = []) := by
  have h := perUserLoop_find c s dId domain users [] n tr g
  rw [show ChangeGroupRequests.find [] g = none from rfl] at h
  rw [ChangeGroupRequests.keys]
  constructor
  · intro hmem hab
    rw [hab.1, hab.2, mergeEntry_nil] at h
    exact (alFind_eq_none_iff _ g).mp h hmem
  · intro hne
    by_contra hmem
    have h2 : ChangeGroupRequests.find
        ((perUserLoop c s dId domain users [] n tr).1) g = none :=
      (alFind_eq_none_iff _ g).mpr hmem
    rw [h2, mergeEntry] at h
    by_cases hab : collectAdds c s dId domain users g = [] ∧
        collectRems c s dId domain users g = []
    · exact hne hab
    · rw [if_neg hab] at h
      exact Option.noConfusion h

theorem nodup_keys_foldl_AddUser (u : String) :
    ∀ (gs : List String) (ch : ChangeGroupRequests),
      (ChangeGroupRequests.keys ch).Nodup →
      (ChangeGroupRequests.keys
        (gs.foldl (fun ch x => ChangeGroupRequests.AddUser ch x u)
          ch)).Nodup := by
  intro gs
  induction gs with
  | nil => intro ch h; exact h
  | cons x rest ih =>
    intro ch h
    exact ih _ (nodup_keys_alInsert _ _ _ h)

theorem nodup_keys_foldl_RemoveUser (u : String) :
    ∀ (gs : List String) (ch : ChangeGroupRequests),
      (ChangeGroupRequests.keys ch).Nodup →
      (ChangeGroupRequests.keys
        (gs.foldl (fun ch x => ChangeGroupRequests.RemoveUser ch x u)
          ch)).Nodup := by
  intro gs
  induction gs with
  | nil => intro ch h; exact h
  | cons x rest ih =>
    intro ch h
    exact ih _ (nodup_keys_alInsert _ _ _ h)

/-- The diff loop never duplicates a change-set key. -/
theorem nodup_keys_perUserLoop {σ : Type} (c : Client σ) (s : σ)
    (dId domain : String) :
    ∀ (users : List CoderUser) (ch : ChangeGroupRequests) (n : Nat)
      (tr : List ApiCall),
      (ChangeGroupRequests.keys ch).Nodup →
      (ChangeGroupRequests.keys
        (perUserLoop c s dId domain users ch n tr).1).Nodup := by
  intro users
  induction users with
  | nil => intro ch n tr h; exact h
  | cons u rest ih =>
    intro ch n tr h
    by_cases h1 : u.loginType = LoginTypeOIDC
    · by_cases h2 : stringHasSuffix u.email ("@" ++ domain) = true
      · simp only [perUserLoop]
        rw [if_neg (show ¬ u.loginType ≠ LoginTypeOIDC from by simp [h1])]
        rw [if_neg (show
          ¬ ¬ (stringHasSuffix u.email ("@" ++ domain) = true) from by
            simp [h2])]
        exact ih _ _ _ (nodup_keys_foldl_RemoveUser _ _ _
          (nodup_keys_foldl_AddUser _ _ _ h))
      · simp only [perUserLoop]
        rw [if_neg (show ¬ u.loginType ≠ LoginTypeOIDC from by simp [h1])]
        rw [if_pos (show
          ¬ (stringHasSuffix u.email ("@" ++ domain) = true) from by
            simpa using h2)]
        exact ih _ _ _ h
    · simp only [perUserLoop]
      rw [if_pos (show u.loginType ≠ LoginTypeOIDC from h1)]
      exact ih _ _ _ h

/-- Membership in the collected adds, for worlds with unique user IDs. -/
theorem mem_collectAdds {σ : Type} (c : Client σ) (s : σ)
    (dId domain : String) (users : List CoderUser) (g : String)
    (hnd : (users.map (fun u => u.id)).Nodup) (u : CoderUser)
    (hu : u ∈ users) :
    u.id ∈ collectAdds c s dId domain users g ↔
      (eligibleUser domain u = true ∧ g ∈ (userDiff c s dId u).1) := by
  rw [collectAdds]
  constructor
  · intro h
    obtain ⟨v, hv, hvid⟩ := List.mem_map.mp h
    rw [List.mem_filter] at hv
    have : v = u := List.inj_on_of_nodup_map hnd hv.1 hu hvid
    subst this
    simpa using hv.2
  · intro ⟨he, hg⟩
    refine List.mem_map.mpr ⟨u, ?_, rfl⟩
    rw [List.mem_filter]
    exact ⟨hu, by simp [he, hg]⟩

/-- Membership in the collected removes, for worlds with unique user
IDs. -/
theorem mem_collectRems {σ : Type} (c : Client σ) (s : σ)
    (dId domain : String) (users : List CoderUser) (g : String)
    (hnd : (users.map (fun u => u.id)).Nodup) (u : CoderUser)
    (hu : u ∈ users) :
    u.id ∈ collectRems c s dId domain users g ↔
      (eligibleUser domain u = true ∧ g ∈ (userDiff c s dId u).2) := by
  rw [collectRems]
  constructor
  · intro h
    obtain ⟨v, hv, hvid⟩ := List.mem_map.mp h
    rw [List.mem_filter] at hv
    have : v = u := List.inj_on_of_nodup_map hnd hv.1 hu hvid
    subst this
    simpa using hv.2
  · intro ⟨he, hg⟩
    refine List.mem_map.mpr ⟨u, ?_, rfl⟩
    rw [List.mem_filter]
    exact ⟨hu, by simp [he, hg]⟩

/-- Every collected add or remove ID belongs to some eligible user. -/
theorem mem_collect_shape {σ : Type} (c : Client σ) (s : σ)
    (dId domain : String) (users : List CoderUser) (g : String)
    (i : String) :
    (i ∈ collectAdds c s dId domain users g →
      ∃ u, u ∈ users ∧ eligibleUser domain u = true ∧ i = u.id) ∧
    (i ∈ collectRems c s dId domain users g →
      ∃ u, u ∈ users ∧ eligibleUser domain u = true ∧ i = u.id) := by
  constructor
  · intro h
    obtain ⟨v, hv, hvid⟩ := List.mem_map.mp h
    rw [List.mem_filter] at hv
    exact ⟨v, hv.1, by simpa using (Bool.and_eq_true _ _ |>.mp hv.2).1,
      hvid.symm⟩
  · intro h
    obtain ⟨v, hv, hvid⟩ := List.mem_map.mp h
    rw [List.mem_filter] at hv
    exact ⟨v, hv.1, by simpa using (Bool.and_eq_true _ _ |>.mp hv.2).1,
      hvid.symm⟩

/-! ## The concrete target system: listing characterizations -/

theorem find?_username_self (users : List CoderUser) (u : CoderUser)
    (hnd : (users.map (fun v => v.username)).Nodup) (hu : u ∈ users) :
    users.find? (fun v => v.username == u.username) = some u := by
  induction users with
  | nil => simp at hu
  | cons v rest ih =>
    rw [List.map_cons, List.nodup_cons] at hnd
    rcases List.mem_cons.mp hu with h | h
    · subst h
      simp [List.find?]
    · have hne : ¬ (v.username == u.username) = true := by
        simp only [beq_iff_eq]
        intro he
        exact hnd.1 (he ▸ List.mem_map_of_mem _ h)
      rw [List.find?, Bool.eq_false_iff.mpr hne]
      exact ih hnd.2 h

/-- The groups a user is a member of, in the concrete target system. -/
def userGroups (w : World) (u : CoderUser) : List WGroup :=
  w.groups.filter (fun g => g.members.contains u.id)

/-- The per-user membership listing answers with exactly the groups whose
member list holds the user's ID, when usernames are unique and the user's
username is nonempty. -/
theorem worldClient_listGroups_member (w : World) (u : CoderUser)
    (hu : u ∈ w.users) (hnd : (w.users.map (fun v => v.username)).Nodup)
    (hne : u.username ≠ "") :
    worldClient.listGroups w { hasMember := u.username } =
      (userGroups w u).map WGroup.toCoderGroup := by
  rw [show worldClient.listGroups w { hasMember := u.username } =
    (w.groups.filter
      (w.matchesArgs { hasMember := u.username })).map WGroup.toCoderGroup
    from rfl]
  rw [userGroups]
  congr 1
  apply List.filter_congr
  intro g hg
  rw [World.matchesArgs]
  simp only [find?_username_self w.users u hnd hu]
  simp [hne]

/-- The snapshot listing of the default organization's groups returns every
group, in a world whose groups all live in that organization. -/
theorem worldClient_listGroups_org (w : World) (d : Organization)
    (horg : ∀ G ∈ w.groups, G.orgId = d.id) :
    worldClient.listGroups w { organization := d.id } =
      w.groups.map WGroup.toCoderGroup := by
  rw [show worldClient.listGroups w { organization := d.id } =
    (w.groups.filter
      (w.matchesArgs { organization := d.id })).map WGroup.toCoderGroup
    from rfl]
  congr 1
  rw [List.filter_eq_self]
  intro g hg
  rw [World.matchesArgs]
  simp [horg g hg]

/-! ## The name-keyed group map -/

theorem alFind_buildGroupMap_aux :
    ∀ (gs : List CoderGroup) (m : List (String × CoderGroup)) (n : String),
      (gs.map (fun G => G.name)).Nodup →
      alFind (gs.foldl (fun m g => alInsert m g.name g) m) n =
        (match gs.find? (fun G => G.name = n) with
         | some G => some G
         | none => alFind m n) := by
  intro gs
  induction gs with
  | nil => intro m n _; simp
  | cons G rest ih =>
    intro m n hnd
    rw [List.map_cons, List.nodup_cons] at hnd
    rw [List.foldl_cons, ih _ _ hnd.2]
    by_cases hn : G.name = n
    · have hrest : rest.find? (fun G2 => G2.name = n) = none := by
        rw [List.find?_eq_none]
        intro G2 hG2
        simp only [decide_eq_true_eq]
        intro he
        exact hnd.1 (by rw [← hn] at he; exact he ▸ List.mem_map_of_mem _ hG2)
      rw [hrest]
      rw [show (List.find? (fun G2 => decide (G2.name = n)) (G :: rest)) =
        some G from by rw [List.find?]; simp [hn]]
      subst hn
      rw [alFind_alInsert_self]
    · rw [show (List.find? (fun G2 => decide (G2.name = n)) (G :: rest)) =
        List.find? (fun G2 => decide (G2.name = n)) rest from by
          rw [List.find?]; simp [hn]]
      cases hfind : rest.find? (fun G2 => G2.name = n) with
      | some G2 => rfl
      | none => exact alFind_alInsert_ne m G.name n G (fun h => hn h.symm)

/-- Looking a name up in the snapshot map finds the first group with that
name, for duplicate-free name lists the only one. -/
theorem alFind_buildGroupMap (gs : List CoderGroup) (n : String)
    (hnd : (gs.map (fun G => G.name)).Nodup) :
    alFind (buildGroupMap gs) n = gs.find? (fun G => G.name = n) := by
  rw [buildGroupMap, alFind_buildGroupMap_aux gs [] n hnd]
  cases h : gs.find? (fun G => G.name = n) <;> simp [alFind]

/-! ## The creation loop on the concrete target system -/

/-- The fresh groups the creation loop adds: one per key missing from the
snapshot map, in key order. -/
def createdGroupsFor (orgId : String) (ks : List String)
    (gm : List (String × CoderGroup)) : List WGroup :=
  (ks.filter (fun g => (alFind gm g).isNone)).map (newWGroup orgId)

/-- On the concrete target system every creation succeeds, so the creation
loop appends one fresh empty group per missing key, drops nothing from the
change set, and extends the group map with exactly the created groups. -/
theorem createLoop_world (orgId : String) :
    ∀ (ks : List String) (w : World) (gm : List (String × CoderGroup))
      (ch : ChangeGroupRequests) (created : List CoderGroup)
      (tr : List ApiCall),
      ks.Nodup →
      (createMissingGroupsLoop worldClient orgId ks w gm ch created tr).1 =
        { w with groups := w.groups ++ createdGroupsFor orgId ks gm } ∧
      (createMissingGroupsLoop worldClient orgId ks w gm ch created
        tr).2.2.1 = ch ∧
      (∀ g, alFind
          (createMissingGroupsLoop worldClient orgId ks w gm ch created
            tr).2.1 g =
        (if g ∈ ks ∧ alFind gm g = none
         then some (newWGroup orgId g).toCoderGroup else alFind gm g)) := by
  intro ks
  induction ks with
  | nil =>
    intro w gm ch created tr _
    refine ⟨?_, rfl, ?_⟩
    · simp [createMissingGroupsLoop, createdGroupsFor]
    · intro g
      simp [createMissingGroupsLoop]
  | cons k rest ih =>
    intro w gm ch created tr hnd
    rw [List.nodup_cons] at hnd
    simp only [createMissingGroupsLoop]
    cases hfind : alFind gm k with
    | some G =>
      obtain ⟨ihw, ihch, ihgm⟩ := ih w gm ch created tr hnd.2
      refine ⟨?_, ihch, ?_⟩
      · rw [ihw]
        simp only [createdGroupsFor, List.filter_cons]
        simp [hfind]
      · intro g
        rw [ihgm g]
        by_cases hgk : g = k
        · subst hgk
          simp [hfind]
        · simp [List.mem_cons, hgk]
    | none =>
      have hcreate : (worldClient.createGroup w orgId
          (mkCreateGroupRequest k)).2 = some (newWGroup orgId k).toCoderGroup
        := rfl
      rw [hcreate]
      obtain ⟨ihw, ihch, ihgm⟩ := ih
        ((worldClient.createGroup w orgId (mkCreateGroupRequest k)).1)
        (alInsert gm k (newWGroup orgId k).toCoderGroup) ch
        (created ++ [(newWGroup orgId k).toCoderGroup])
        (tr ++ [ApiCall.createGroup orgId (mkCreateGroupRequest k)]) hnd.2
      have hfiltereq : createdGroupsFor orgId rest
          (alInsert gm k (newWGroup orgId k).toCoderGroup) =
          createdGroupsFor orgId rest gm := by
        simp only [createdGroupsFor]
        congr 1
        apply List.filter_congr
        intro g hg
        rw [alFind_alInsert_ne gm k g _ (fun h => hnd.1 (h ▸ hg))]
      refine ⟨?_, ihch, ?_⟩
      · rw [ihw, hfiltereq]
        simp only [createdGroupsFor, List.filter_cons]
        simp [worldClient, mkCreateGroupRequest, hfind, List.append_assoc]
      · intro g
        rw [ihgm g]
        by_cases hgk : g = k
        · subst hgk
          rw [if_neg (fun hc : g ∈ rest ∧ _ => hnd.1 hc.1)]
          rw [alFind_alInsert_self]
          rw [if_pos ⟨List.mem_cons_self g rest, hfind⟩]
        · rw [alFind_alInsert_ne gm k g _ hgk]
          by_cases hgr : g ∈ rest ∧ alFind gm g = none
          · rw [if_pos hgr, if_pos ⟨List.mem_cons_of_mem k hgr.1, hgr.2⟩]
          · rw [if_neg hgr, if_neg (fun hc => hgr ⟨by
              rcases List.mem_cons.mp hc.1 with h | h
              · exact absurd h hgk
              · exact h, hc.2⟩)]

/-! ## The application loop on the concrete target system -/

/-- The cumulative effect of applying every change entry, each patch
addressed at the entry's group ID as resolved through the group map. -/
def patchedGroups (gm : List (String × CoderGroup))
    (entries : ChangeGroupRequests) (gs : List WGroup) : List WGroup :=
  entries.foldl (fun gs p =>
    patchGroupsById gs
      ((alFind gm p.1).getD { id := "", name := "" }).id p.2) gs

/-- On the concrete target system every patch succeeds, so the application
loop threads the state through one `patchGroupsById` per entry, addressed
at the entry's resolved group ID. -/
theorem applyLoop_world :
    ∀ (entries : ChangeGroupRequests) (w : World)
      (gm : List (String × CoderGroup)) (tr : List ApiCall),
      (∀ p ∈ entries, (alFind gm p.1).isSome = true) →
      (applyGroupChangesLoop worldClient entries w gm tr).1 =
        { w with groups := patchedGroups gm entries w.groups } := by
  intro entries
  induction entries with
  | nil =>
    intro w gm tr _
    simp [applyGroupChangesLoop, patchedGroups]
  | cons e rest ih =>
    intro w gm tr hres
    obtain ⟨g, req⟩ := e
    simp only [applyGroupChangesLoop]
    cases hfind : alFind gm g with
    | none =>
      have := hres (g, req) (List.mem_cons_self _ _)
      rw [hfind] at this
      simp at this
    | some G =>
      dsimp only
      rw [show (worldClient.patchGroup w G.id req).2 = true from rfl,
        if_pos rfl]
      rw [ih ((worldClient.patchGroup w G.id req).1) gm
        (tr ++ [ApiCall.patchGroup G.id req])
        (fun p hp => hres p (List.mem_cons_of_mem _ hp))]
      simp only [patchedGroups, List.foldl_cons]
      rw [show ((alFind gm (g, req).1).getD { id := "", name := "" }).id =
        G.id from by rw [show (g, req).1 = g from rfl, hfind]; rfl]
      simp [worldClient]

/-! ## Membership after the cumulative patches -/

theorem applyReq_id (g : WGroup) (req : PatchGroupRequest) :
    (applyReq g req).id = g.id := rfl

theorem applyReq_name (g : WGroup) (req : PatchGroupRequest) :
    (applyReq g req).name = g.name := rfl

theorem applyReq_orgId (g : WGroup) (req : PatchGroupRequest) :
    (applyReq g req).orgId = g.orgId := rfl

theorem mem_applyReq (g : WGroup) (req : PatchGroupRequest) (i : String) :
    i ∈ (applyReq g req).members ↔
      ((i ∈ g.members ∧ i ∉ req.RemoveUsers) ∨
       (i ∈ req.AddUsers ∧ i ∉ g.members)) := by
  rw [applyReq]
  simp [List.mem_filter]

/-- The resolved ID a change entry patches. -/
def resolvedId (gm : List (String × CoderGroup))
    (p : String × PatchGroupRequest) : String :=
  ((alFind gm p.1).getD { id := "", name := "" }).id

/-- The cumulative patches act pointwise on the group list. -/
theorem patchedGroups_map (gm : List (String × CoderGroup)) :
    ∀ (entries : ChangeGroupRequests) (gs : List WGroup),
      patchedGroups gm entries gs = gs.map (fun G =>
        entries.foldl (fun G2 p =>
          if G2.id = resolvedId gm p then applyReq G2 p.2 else G2) G) := by
  intro entries
  induction entries with
  | nil =>
    intro gs
    simp [patchedGroups]
  | cons p rest ih =>
    intro gs
    rw [patchedGroups, List.foldl_cons, ← patchedGroups, ih,
      patchGroupsById, List.map_map]
    apply List.map_congr_left
    intro G _
    rfl

theorem foldl_patch_no_match (gm : List (String × CoderGroup)) :
    ∀ (entries : ChangeGroupRequests) (G : WGroup),
      (∀ p ∈ entries, resolvedId gm p ≠ G.id) →
      entries.foldl (fun G2 p =>
        if G2.id = resolvedId gm p then applyReq G2 p.2 else G2) G = G := by
  intro entries
  induction entries with
  | nil => intro G _; rfl
  | cons p rest ih =>
    intro G hno
    rw [List.foldl_cons,
      if_neg (fun h => hno p (List.mem_cons_self _ _) h.symm)]
    exact ih G (fun q hq => hno q (List.mem_cons_of_mem _ hq))

theorem foldl_patch_single (gm : List (String × CoderGroup))
    (l1 l2 : ChangeGroupRequests) (p0 : String × PatchGroupRequest)
    (G : WGroup) (h1 : ∀ p ∈ l1, resolvedId gm p ≠ G.id)
    (h2 : ∀ p ∈ l2, resolvedId gm p ≠ G.id) (h0 : resolvedId gm p0 = G.id) :
    (l1 ++ p0 :: l2).foldl (fun G2 p =>
      if G2.id = resolvedId gm p then applyReq G2 p.2 else G2) G =
      applyReq G p0.2 := by
  rw [List.foldl_append, foldl_patch_no_match gm l1 G h1, List.foldl_cons,
    if_pos h0.symm]
  exact foldl_patch_no_match gm l2 (applyReq G p0.2)
    (fun p hp h => h2 p hp (by rw [applyReq_id] at h; exact h))

/-! ## A concrete run with one failing creation (C7 witness data) -/

/-- An adapter where the eligible user alice needs two new groups,
`"badgroup"` and `"goodgroup"`, and creating `"badgroup"` fails while every
other creation and every patch succeeds. -/
def testEnvC7 : Env where
  organizations := [{ id := "org1", isDefault := true }]
  groupsAnswer := fun _ => []
  users := [{ id := "u1", username := "alice", email := "alice@example.com",
              loginType := "oidc" }]
  googleGroupsOf := fun _ =>
    [{ name := "Bad Group", email := "bad@example.com" },
     { name := "Good Group", email := "good@example.com" }]
  createGroupResult := fun _ req =>
    if req.Name = "badgroup" then none
    else some { id := "new-" ++ req.Name, name := req.Name }
  patchGroupResult := fun _ _ => true

theorem creation_failure_isolated_witness :
    ∃ tr r, SyncGroups (envClient testEnvC7) () "example.com" =
        ((), tr, Except.ok r) ∧
      ChangeGroupRequests.find r.finalChanges "badgroup" = none ∧
      (∀ g, g ≠ "badgroup" →
         ChangeGroupRequests.find r.finalChanges g =
           ChangeGroupRequests.find r.changesAfterDiff g) ∧
      "badgroup" ∉ ChangeGroupRequests.keys r.finalChanges ∧
      (∀ gid req, ApiCall.patchGroup gid req ∈ tr →
         ∃ p, p ∈ r.finalChanges ∧ p.2 = req ∧ p.1 ≠ "badgroup") ∧
      (∀ p ∈ r.finalChanges, ∃ gid, ApiCall.patchGroup gid p.2 ∈ tr) :=
  creation_failure_isolated testEnvC7 "example.com"
    { id := "org1", isDefault := true } "badgroup" (by decide) (by decide)
    (by decide)
    (fun g hg => by simp [testEnvC7, mkCreateGroupRequest, hg])
    (fun gid req => rfl)

/-- A group named like some key occurring in an association list with
duplicate-free name list is found by `find?`. -/
theorem find?_name_self (gs : List CoderGroup) (G : CoderGroup)
    (hnd : (gs.map (fun G2 => G2.name)).Nodup) (hmem : G ∈ gs) :
    gs.find? (fun G2 => G2.name = G.name) = some G := by
  induction gs with
  | nil => simp at hmem
  | cons H rest ih =>
    rw [List.map_cons, List.nodup_cons] at hnd
    rcases List.mem_cons.mp hmem with h | h
    · subst h
      simp [List.find?]
    · have hne : ¬ (H.name = G.name) := by
        intro he
        exact hnd.1 (he ▸ List.mem_map_of_mem _ h)
      rw [List.find?, show (decide (H.name = G.name)) = false from by
        simp [hne]]
      exact ih hnd.2 h

/-! ## C2 counterexample: the claim fails without further preconditions

On `testCrossOrgWorld` every creation and every patch succeeds (the concrete
target system cannot fail), yet the second run's change set is not empty:
the cross-organization group `"foreign"` is diffed away again. -/

theorem idempotence_counterexample :
    (SyncGroups worldClient testCrossOrgWorld
      "example.com").2.2.toOption.isSome = true ∧
    ((SyncGroups worldClient
        (SyncGroups worldClient testCrossOrgWorld "example.com").1
        "example.com").2.2.toOption.map
      (fun r => r.changesAfterDiff.isEmpty)) = some false := by
  refine ⟨by decide, by decide⟩

/-! ## The phases of one run on the concrete target system, named

These definitions name the intermediate values `SyncGroups worldClient`
computes, so the idempotence argument can speak about them. -/

/-- The diff phase of a run: change set, eligible-user count, trace. -/
def diffedOf (w : World) (domain : String) (d : Organization) :
    ChangeGroupRequests × Nat × List ApiCall :=
  perUserLoop worldClient w d.id domain (worldClient.listUsers w) [] 0
    (trInit d)

/-- The change set right after the diff phase. -/
def ch1Of (w : World) (domain : String) (d : Organization) :
    ChangeGroupRequests :=
  (diffedOf w domain d).1

/-- The snapshot group map of a run. -/
def gm0Of (w : World) (d : Organization) : List (String × CoderGroup) :=
  buildGroupMap (worldClient.listGroups w { organization := d.id })

/-- The change-set keys after the diff phase. -/
def ksOf (w : World) (domain : String) (d : Organization) : List String :=
  ChangeGroupRequests.keys (ch1Of w domain d)

/-- The groups the creation phase adds to the concrete target system. -/
def createdWOf (w : World) (domain : String) (d : Organization) :
    List WGroup :=
  createdGroupsFor d.id (ksOf w domain d) (gm0Of w d)

/-- All target groups right after the creation phase. -/
def allGOf (w : World) (domain : String) (d : Organization) : List WGroup :=
  w.groups ++ createdWOf w domain d

/-- The group map after the creation phase. -/
def gm1Of (w : World) (domain : String) (d : Organization) :
    List (String × CoderGroup) :=
  (createMissingGroupsLoop worldClient d.id (ksOf w domain d) w
    (gm0Of w d) (ch1Of w domain d) [] (diffedOf w domain d).2.2).2.1

/-- The cumulative effect of the application phase on one group. -/
def finalizeG (w : World) (domain : String) (d : Organization)
    (G : WGroup) : WGroup :=
  (ch1Of w domain d).foldl (fun G2 p =>
    if G2.id = resolvedId (gm1Of w domain d) p then applyReq G2 p.2 else G2)
    G

/-- The names a run expects an eligible user to end up holding: the
normalized Google group names plus the everyone-group name computed from the
user's current groups. -/
def expectedOf (w : World) (d : Organization) (u : CoderUser) :
    List String :=
  ExpectedCoderGroups (w.googleGroupsOf u.email) ++
    [everyoneGroupName ((userGroups w u).map WGroup.toCoderGroup) d.id]

/-! ## Small helper lemmas for the idempotence proof -/

theorem createdGroupId_injective (a b : String)
    (h : createdGroupId a = createdGroupId b) : a = b := by
  rw [createdGroupId, createdGroupId] at h
  have h2 := congrArg String.data h
  rw [String.data_append, String.data_append] at h2
  cases a
  cases b
  exact congrArg String.mk (List.append_cancel_left h2)

theorem alFind_of_mem_nodup {α : Type} :
    ∀ (m : List (String × α)) (p : String × α),
      (m.map Prod.fst).Nodup → p ∈ m → alFind m p.1 = some p.2
  | [], p, _, hp => absurd hp (List.not_mem_nil p)
  | q :: rest, p, hnd, hp => by
    rw [List.map_cons, List.nodup_cons] at hnd
    rcases List.mem_cons.mp hp with h | h
    · subst h
      simp [alFind]
    · have hne : ¬ q.1 = p.1 := fun he =>
        hnd.1 (he ▸ List.mem_map_of_mem Prod.fst h)
      rw [alFind, if_neg hne]
      exact alFind_of_mem_nodup rest p hnd.2 h

theorem foldl_patch_keeps_id (gm : List (String × CoderGroup)) :
    ∀ (entries : ChangeGroupRequests) (G : WGroup),
      (entries.foldl (fun G2 p =>
        if G2.id = resolvedId gm p then applyReq G2 p.2 else G2) G).id =
        G.id := by
  intro entries
  induction entries with
  | nil => intro G; rfl
  | cons p rest ih =>
    intro G
    rw [List.foldl_cons]
    by_cases h : G.id = resolvedId gm p
    · rw [if_pos h, ih, applyReq_id]
    · rw [if_neg h, ih]

theorem foldl_patch_keeps_name (gm : List (String × CoderGroup)) :
    ∀ (entries : ChangeGroupRequests) (G : WGroup),
      (entries.foldl (fun G2 p =>
        if G2.id = resolvedId gm p then applyReq G2 p.2 else G2) G).name =
        G.name := by
  intro entries
  induction entries with
  | nil => intro G; rfl
  | cons p rest ih =>
    intro G
    rw [List.foldl_cons]
    by_cases h : G.id = resolvedId gm p
    · rw [if_pos h, ih, applyReq_name]
    · rw [if_neg h, ih]

/-- When some current group carries the default organization's ID and every
such group is named `n`, the everyone-group name is `n`. -/
theorem everyoneGroupName_eq_name (cGroups : List CoderGroup) (dId n : String)
    (hex : ∃ G ∈ cGroups, G.id = dId)
    (hall : ∀ G ∈ cGroups, G.id = dId → G.name = n) :
    everyoneGroupName cGroups dId = n := by
  rw [everyoneGroupName, foldl_everyone]
  cases hf : cGroups.reverse.find? (fun g => g.id = dId) with
  | none =>
    exfalso
    obtain ⟨G, hG, hid⟩ := hex
    have := List.find?_eq_none.mp hf G (List.mem_reverse.mpr hG)
    simp [hid] at this
  | some G =>
    have h1 := List.find?_some hf
    have h2 := List.mem_of_find?_eq_some hf
    exact hall G (List.mem_reverse.mp h2) (by simpa using h1)

/-- When no current group carries the default organization's ID, the
everyone-group name falls back to `"Everyone"`. -/
theorem everyoneGroupName_default (cGroups : List CoderGroup) (dId : String)
    (h : ∀ G ∈ cGroups, G.id ≠ dId) :
    everyoneGroupName cGroups dId = "Everyone" := by
  rw [everyoneGroupName, foldl_everyone]
  cases hf : cGroups.reverse.find? (fun g => g.id = dId) with
  | none => rfl
  | some G =>
    exfalso
    exact h G (List.mem_reverse.mp (List.mem_of_find?_eq_some hf))
      (by simpa using List.find?_some hf)

/-- On the concrete target system a run that finds a default organization
and a nonempty change set always succeeds, and its final state applies the
cumulative patches to the pre-existing groups plus the freshly created
ones. -/
theorem syncGroups_run_shape (w : World) (domain : String)
    (d : Organization)
    (hdef : defaultOrganization w.organizations = some d)
    (hne : (ch1Of w domain d).isEmpty = false) :
    ∃ tr r, SyncGroups worldClient w domain =
      ({ w with groups :=
          (allGOf w domain d).map (finalizeG w domain d) }, tr,
       Except.ok r) := by
  have hdefE : defaultOrganization (worldClient.listOrganizations w) =
      some d := hdef
  simp only [SyncGroups, hdefE]
  simp only [syncAfterDefault]
  rw [show (perUserLoop worldClient w d.id domain (worldClient.listUsers w)
    [] 0 (trInit d)).1.isEmpty = false from hne]
  rw [if_neg (by simp : ¬ (false = true))]
  set diffed := perUserLoop worldClient w d.id domain
    (worldClient.listUsers w) [] 0 (trInit d) with hdf
  set gmv := buildGroupMap (worldClient.listGroups w
    { organization := d.id }) with hgm
  set createRes := createMissingGroups worldClient w d.id gmv diffed.1
    diffed.2.2 with hcr
  set applyRes := applyGroupChangesLoop worldClient createRes.2.2.1
    createRes.1 createRes.2.1 createRes.2.2.2.2 with har
  have hknd : (ChangeGroupRequests.keys diffed.1).Nodup :=
    nodup_keys_perUserLoop worldClient w d.id domain
      (worldClient.listUsers w) [] 0 (trInit d)
      (by simp [ChangeGroupRequests.keys])
  have hcw : createRes.1 = { w with groups := w.groups ++ createdGroupsFor d.id (ChangeGroupRequests.keys diffed.1) gmv } :=
    (createLoop_world d.id (ChangeGroupRequests.keys diffed.1) w gmv
      diffed.1 [] diffed.2.2 hknd).1
  have hcch : createRes.2.2.1 = diffed.1 :=
    (createLoop_world d.id (ChangeGroupRequests.keys diffed.1) w gmv
      diffed.1 [] diffed.2.2 hknd).2.1
  have hcgm : ∀ g, alFind createRes.2.1 g =
      (if g ∈ ChangeGroupRequests.keys diffed.1 ∧ alFind gmv g = none
       then some (newWGroup d.id g).toCoderGroup else alFind gmv g) :=
    (createLoop_world d.id (ChangeGroupRequests.keys diffed.1) w gmv
      diffed.1 [] diffed.2.2 hknd).2.2
  have hres : ∀ p ∈ createRes.2.2.1,
      (alFind createRes.2.1 p.1).isSome = true := by
    intro p hp
    rw [hcch] at hp
    have hk : p.1 ∈ ChangeGroupRequests.keys diffed.1 :=
      List.mem_map_of_mem _ hp
    rw [hcgm p.1]
    by_cases hn : alFind gmv p.1 = none
    · rw [if_pos ⟨hk, hn⟩]
      rfl
    · rw [if_neg (fun hc => hn hc.2)]
      cases hf : alFind gmv p.1 with
      | none => exact absurd hf hn
      | some G => rfl
  have hok : applyRes.2.2 = none :=
    (applyLoop_all_ok worldClient (fun _ _ _ => rfl) createRes.2.2.1
      createRes.1 createRes.2.1 createRes.2.2.2.2 hres).1
  have hworld : applyRes.1 = { createRes.1 with groups := patchedGroups createRes.2.1 createRes.2.2.1 createRes.1.groups } :=
    applyLoop_world createRes.2.2.1 createRes.1 createRes.2.1
      createRes.2.2.2.2 hres
  rw [hok]
  refine ⟨applyRes.2.1, { oidcUserCount := diffed.2.1, noChanges := false, changesAfterDiff := diffed.1, createdGroups := createRes.2.2.2.1, finalChanges := createRes.2.2.1 }, ?_⟩
  have hfinal : applyRes.1 = { w with groups := (allGOf w domain d).map (finalizeG w domain d) } := by
    rw [hworld, hcw, hcch, patchedGroups_map]
    rfl
  rw [hfinal]

/-! ## Characterizing the snapshot and post-creation group maps -/

theorem ksOf_nodup (w : World) (domain : String) (d : Organization) :
    (ksOf w domain d).Nodup :=
  nodup_keys_perUserLoop worldClient w d.id domain
    (worldClient.listUsers w) [] 0 (trInit d)
    (by simp [ChangeGroupRequests.keys])

theorem gm0Of_find (w : World) (d : Organization)
    (horg : ∀ G ∈ w.groups, G.orgId = d.id)
    (hgnames : (w.groups.map (fun G => G.name)).Nodup) (n : String) :
    alFind (gm0Of w d) n =
      (w.groups.map WGroup.toCoderGroup).find? (fun G => G.name = n) := by
  rw [gm0Of, worldClient_listGroups_org w d horg]
  apply alFind_buildGroupMap
  rw [List.map_map]
  exact hgnames

theorem gm0Of_find_none (w : World) (d : Organization)
    (horg : ∀ G ∈ w.groups, G.orgId = d.id)
    (hgnames : (w.groups.map (fun G => G.name)).Nodup) (n : String) :
    alFind (gm0Of w d) n = none ↔ ∀ G ∈ w.groups, G.name ≠ n := by
  rw [gm0Of_find w d horg hgnames n, List.find?_eq_none]
  constructor
  · intro h G hG
    have := h (WGroup.toCoderGroup G) (List.mem_map_of_mem _ hG)
    simpa using this
  · intro h x hx
    obtain ⟨G, hG, rfl⟩ := List.mem_map.mp hx
    simpa using h G hG

theorem gm0Of_find_mem (w : World) (d : Organization)
    (horg : ∀ G ∈ w.groups, G.orgId = d.id)
    (hgnames : (w.groups.map (fun G => G.name)).Nodup) (G : WGroup)
    (hG : G ∈ w.groups) :
    alFind (gm0Of w d) G.name = some (WGroup.toCoderGroup G) := by
  rw [gm0Of_find w d horg hgnames]
  have hnd : ((w.groups.map WGroup.toCoderGroup).map
      (fun G2 => G2.name)).Nodup := by
    rw [List.map_map]
    exact hgnames
  exact find?_name_self _ (WGroup.toCoderGroup G) hnd
    (List.mem_map_of_mem _ hG)

theorem mem_createdWOf (w : World) (domain : String) (d : Organization)
    (G : WGroup) :
    G ∈ createdWOf w domain d ↔
      ∃ g, g ∈ ksOf w domain d ∧ alFind (gm0Of w d) g = none ∧
        G = newWGroup d.id g := by
  rw [createdWOf, createdGroupsFor]
  simp only [List.mem_map, List.mem_filter, Option.isNone_iff_eq_none]
  constructor
  · rintro ⟨g, ⟨hk, hn⟩, rfl⟩
    exact ⟨g, hk, hn, rfl⟩
  · rintro ⟨g, hk, hn, rfl⟩
    exact ⟨g, ⟨hk, hn⟩, rfl⟩

theorem gm1Of_find (w : World) (domain : String) (d : Organization)
    (g : String) :
    alFind (gm1Of w domain d) g =
      (if g ∈ ksOf w domain d ∧ alFind (gm0Of w d) g = none
       then some (newWGroup d.id g).toCoderGroup
       else alFind (gm0Of w d) g) :=
  (createLoop_world d.id (ksOf w domain d) w (gm0Of w d)
    (ch1Of w domain d) [] (diffedOf w domain d).2.2
    (ksOf_nodup w domain d)).2.2 g

/-- A change entry's patch lands on a group of the final listing exactly
when the entry's key is that group's name. -/
theorem resolvedId_char (w : World) (domain : String) (d : Organization)
    (horg : ∀ G ∈ w.groups, G.orgId = d.id)
    (hgnames : (w.groups.map (fun G => G.name)).Nodup)
    (hgids : (w.groups.map (fun G => G.id)).Nodup)
    (hfresh : ∀ nm G, G ∈ w.groups → createdGroupId nm ≠ G.id)
    (p : String × PatchGroupRequest) (hp : p ∈ ch1Of w domain d)
    (G : WGroup) (hG : G ∈ allGOf w domain d) :
    (resolvedId (gm1Of w domain d) p = G.id ↔ p.1 = G.name) := by
  have hk : p.1 ∈ ksOf w domain d := List.mem_map_of_mem _ hp
  rw [allGOf] at hG
  rw [resolvedId, gm1Of_find w domain d p.1]
  rcases List.mem_append.mp hG with hGw | hGc
  · by_cases hn : alFind (gm0Of w d) p.1 = none
    · rw [if_pos ⟨hk, hn⟩]
      constructor
      · intro h
        exact absurd h (hfresh p.1 G hGw)
      · intro h
        exact absurd h.symm
          (((gm0Of_find_none w d horg hgnames p.1).mp hn) G hGw)
    · rw [if_neg (fun hc => hn hc.2)]
      cases hf : alFind (gm0Of w d) p.1 with
      | none => exact absurd hf hn
      | some Gc =>
        have hfind : (w.groups.map WGroup.toCoderGroup).find?
            (fun G2 => G2.name = p.1) = some Gc := by
          rw [← gm0Of_find w d horg hgnames p.1, hf]
        obtain ⟨H, hH, hHe⟩ :=
          List.mem_map.mp (List.mem_of_find?_eq_some hfind)
        have hHname : H.name = p.1 := by
          have h2 : Gc.name = p.1 := by
            simpa using List.find?_some hfind
          rw [← hHe] at h2
          exact h2
        constructor
        · intro h
          have hid : H.id = G.id := by
            rw [← hHe] at h
            exact h
          have hHG : H = G := List.inj_on_of_nodup_map hgids hH hGw hid
          rw [← hHG]
          exact hHname.symm
        · intro h
          have hname : H.name = G.name := by rw [hHname, h]
          have hHG : H = G :=
            List.inj_on_of_nodup_map hgnames hH hGw hname
          show Gc.id = G.id
          rw [← hHe, hHG]
          rfl
  · obtain ⟨g, hgk, hgn, rfl⟩ := (mem_createdWOf w domain d G).mp hGc
    by_cases hn : alFind (gm0Of w d) p.1 = none
    · rw [if_pos ⟨hk, hn⟩]
      constructor
      · intro h
        have h2 := createdGroupId_injective p.1 g h
        rw [h2]
        rfl
      · intro h
        have h2 : p.1 = g := h
        rw [h2]
        rfl
    · rw [if_neg (fun hc => hn hc.2)]
      cases hf : alFind (gm0Of w d) p.1 with
      | none => exact absurd hf hn
      | some Gc =>
        have hfind : (w.groups.map WGroup.toCoderGroup).find?
            (fun G2 => G2.name = p.1) = some Gc := by
          rw [← gm0Of_find w d horg hgnames p.1, hf]
        obtain ⟨H, hH, hHe⟩ :=
          List.mem_map.mp (List.mem_of_find?_eq_some hfind)
        constructor
        · intro h
          exfalso
          apply hfresh g H hH
          rw [← hHe] at h
          exact h.symm
        · intro h
          exfalso
          have h2 : p.1 = g := h
          rw [h2, hgn] at hf
          exact Option.noConfusion hf

/-- Membership after a full run, pointwise: an eligible user ends up in a
final-listing group exactly when the group's name is in the run's expected
set for that user. -/
theorem finalize_membership (w : World) (domain : String) (d : Organization)
    (horg : ∀ G ∈ w.groups, G.orgId = d.id)
    (hgnames : (w.groups.map (fun G => G.name)).Nodup)
    (hgids : (w.groups.map (fun G => G.id)).Nodup)
    (hfresh : ∀ nm G, G ∈ w.groups → createdGroupId nm ≠ G.id)
    (huids : (w.users.map (fun u => u.id)).Nodup)
    (hunames : (w.users.map (fun u => u.username)).Nodup)
    (husern : ∀ u ∈ w.users, u.username ≠ "")
    (u : CoderUser) (hu : u ∈ w.users)
    (helig : eligibleUser domain u = true)
    (G : WGroup) (hG : G ∈ allGOf w domain d) :
    (u.id ∈ (finalizeG w domain d G).members ↔
      G.name ∈ expectedOf w d u) := by
  have hug := worldClient_listGroups_member w u hu hunames (husern u hu)
  have hdiff : userDiff worldClient w d.id u =
      SymmetricDifference
        (((userGroups w u).map WGroup.toCoderGroup).map (fun x => x.name))
        (expectedOf w d u) := by
    simp only [userDiff]
    rw [hug]
    rfl
  have hGmem : u.id ∈ G.members ↔
      G.name ∈ ((userGroups w u).map WGroup.toCoderGroup).map
        (fun x => x.name) := by
    rw [List.map_map]
    have hGsplit := hG
    rw [allGOf] at hGsplit
    rcases List.mem_append.mp hGsplit with hGw | hGc
    · constructor
      · intro hmem
        refine List.mem_map.mpr ⟨G, ?_, rfl⟩
        rw [userGroups]
        exact List.mem_filter.mpr ⟨hGw, List.elem_iff.mpr hmem⟩
      · intro hname
        obtain ⟨H, hH, hHname⟩ := List.mem_map.mp hname
        rw [userGroups] at hH
        have hHw : H ∈ w.groups := (List.mem_filter.mp hH).1
        have hHmem : u.id ∈ H.members :=
          List.elem_iff.mp (List.mem_filter.mp hH).2
        have hHG : H = G :=
          List.inj_on_of_nodup_map hgnames hHw hGw hHname
        rw [← hHG]
        exact hHmem
    · obtain ⟨g, hgk, hgn, rfl⟩ := (mem_createdWOf w domain d G).mp hGc
      constructor
      · intro hmem
        exact absurd hmem (List.not_mem_nil _)
      · intro hname
        exfalso
        obtain ⟨H, hH, hHname⟩ := List.mem_map.mp hname
        rw [userGroups] at hH
        have hHw : H ∈ w.groups := (List.mem_filter.mp hH).1
        exact ((gm0Of_find_none w d horg hgnames g).mp hgn) H hHw hHname
  have hAdds := mem_collectAdds worldClient w d.id domain
    (worldClient.listUsers w) G.name huids u hu
  have hRems := mem_collectRems worldClient w d.id domain
    (worldClient.listUsers w) G.name huids u hu
  rw [hdiff, mem_symmetricDifference_add] at hAdds
  rw [hdiff, mem_symmetricDifference_remove] at hRems
  simp only [helig, true_and] at hAdds hRems
  rw [finalizeG]
  by_cases hkey : G.name ∈ ksOf w domain d
  · have hkey2 := hkey
    rw [ksOf, ChangeGroupRequests.keys] at hkey2
    obtain ⟨p0, hp0, hp0name⟩ := List.mem_map.mp hkey2
    obtain ⟨l1, l2, hsplit⟩ := List.append_of_mem hp0
    have hknd2 : ((l1 ++ p0 :: l2).map (fun x => x.1)).Nodup := by
      rw [← hsplit]
      exact ksOf_nodup w domain d
    rw [List.map_append, List.map_cons, List.nodup_append] at hknd2
    obtain ⟨hnd1, hnd2, hdisj⟩ := hknd2
    have hhead : p0.1 ∉ l2.map (fun x => x.1) :=
      (List.nodup_cons.mp hnd2).1
    have hothers1 : ∀ p ∈ l1, resolvedId (gm1Of w domain d) p ≠ G.id := by
      intro p hp h
      have hpch : p ∈ ch1Of w domain d := by
        rw [hsplit]
        exact List.mem_append_left _ hp
      have hpn := (resolvedId_char w domain d horg hgnames hgids hfresh p
        hpch G hG).mp h
      have hmem1 : p0.1 ∈ l1.map (fun x => x.1) := by
        rw [hp0name, ← hpn]
        exact List.mem_map_of_mem _ hp
      exact hdisj hmem1 (List.mem_cons_self _ _)
    have hothers2 : ∀ p ∈ l2, resolvedId (gm1Of w domain d) p ≠ G.id := by
      intro p hp h
      have hpch : p ∈ ch1Of w domain d := by
        rw [hsplit]
        exact List.mem_append_right _ (List.mem_cons_of_mem _ hp)
      have hpn := (resolvedId_char w domain d horg hgnames hgids hfresh p
        hpch G hG).mp h
      apply hhead
      rw [hp0name, ← hpn]
      exact List.mem_map_of_mem _ hp
    have hp0res : resolvedId (gm1Of w domain d) p0 = G.id :=
      (resolvedId_char w domain d horg hgnames hgids hfresh p0 hp0 G
        hG).mpr hp0name
    rw [hsplit, foldl_patch_single (gm1Of w domain d) l1 l2 p0 G hothers1
      hothers2 hp0res, mem_applyReq]
    have hfindp0 : ChangeGroupRequests.find (ch1Of w domain d) G.name =
        some p0.2 := by
      rw [← hp0name]
      exact alFind_of_mem_nodup _ p0 (ksOf_nodup w domain d) hp0
    have hfd : ChangeGroupRequests.findD (ch1Of w domain d) G.name =
        p0.2 := by
      rw [ChangeGroupRequests.findD, hfindp0]
      rfl
    have hp02 : p0.2 = { AddUsers := collectAdds worldClient w d.id domain (worldClient.listUsers w) G.name, RemoveUsers := collectRems worldClient w d.id domain (worldClient.listUsers w) G.name } := by
      rw [← hfd]
      exact perUserLoop_findD worldClient w d.id domain
        (worldClient.listUsers w) 0 (trInit d) G.name
    rw [hp02]
    constructor
    · rintro (⟨hmem, hnrem⟩ | ⟨hadd, hnmem⟩)
      · by_contra hne
        exact hnrem (hRems.mpr ⟨hGmem.mp hmem, hne⟩)
      · exact (hAdds.mp hadd).1
    · intro hexp
      by_cases hmem : u.id ∈ G.members
      · left
        exact ⟨hmem, fun hrem => (hRems.mp hrem).2 hexp⟩
      · right
        exact ⟨hAdds.mpr ⟨hexp, fun hact => hmem (hGmem.mpr hact)⟩, hmem⟩
  · have hempty : collectAdds worldClient w d.id domain
        (worldClient.listUsers w) G.name = [] ∧
        collectRems worldClient w d.id domain
          (worldClient.listUsers w) G.name = [] :=
      not_not.mp (fun hn => hkey
        ((perUserLoop_keys worldClient w d.id domain
          (worldClient.listUsers w) 0 (trInit d) G.name).mpr hn))
    have hnall : ∀ p ∈ ch1Of w domain d,
        resolvedId (gm1Of w domain d) p ≠ G.id := by
      intro p hp h
      have hpn := (resolvedId_char w domain d horg hgnames hgids hfresh p
        hp G hG).mp h
      exact hkey (hpn ▸ List.mem_map_of_mem _ hp)
    rw [foldl_patch_no_match (gm1Of w domain d) (ch1Of w domain d) G hnall,
      hGmem]
    constructor
    · intro hact
      by_contra hne
      have hmem2 : u.id ∈ collectRems worldClient w d.id domain
          (worldClient.listUsers w) G.name := hRems.mpr ⟨hact, hne⟩
      rw [hempty.2] at hmem2
      exact absurd hmem2 (List.not_mem_nil _)
    · intro hexp
      by_contra hnact
      have hmem2 : u.id ∈ collectAdds worldClient w d.id domain
          (worldClient.listUsers w) G.name := hAdds.mpr ⟨hexp, hnact⟩
      rw [hempty.1] at hmem2
      exact absurd hmem2 (List.not_mem_nil _)

/-- The engine's per-user diff on the concrete target system, written with
the named actual and expected sets. -/
theorem userDiff_world (w : World) (d : Organization)
    (hunames : (w.users.map (fun v => v.username)).Nodup)
    (husern : ∀ v ∈ w.users, v.username ≠ "")
    (u : CoderUser) (hu : u ∈ w.users) :
    userDiff worldClient w d.id u =
      SymmetricDifference
        (((userGroups w u).map WGroup.toCoderGroup).map (fun x => x.name))
        (expectedOf w d u) := by
  have hug := worldClient_listGroups_member w u hu hunames (husern u hu)
  simp only [userDiff]
  rw [hug]
  rfl

/-- Every name a run expects of an eligible user is the name of some group
of the final listing: it either already existed or the run creates it. -/
theorem expectedOf_sub (w : World) (domain : String) (d : Organization)
    (horg : ∀ G ∈ w.groups, G.orgId = d.id)
    (hgnames : (w.groups.map (fun G => G.name)).Nodup)
    (hunames : (w.users.map (fun v => v.username)).Nodup)
    (husern : ∀ v ∈ w.users, v.username ≠ "")
    (huids : (w.users.map (fun v => v.id)).Nodup)
    (u : CoderUser) (hu : u ∈ w.users)
    (helig : eligibleUser domain u = true)
    (x : String) (hx : x ∈ expectedOf w d u) :
    ∃ G ∈ allGOf w domain d, G.name = x := by
  by_cases hw : ∃ G ∈ w.groups, G.name = x
  · obtain ⟨G, hG, hname⟩ := hw
    refine ⟨G, ?_, hname⟩
    rw [allGOf]
    exact List.mem_append_left _ hG
  · push_neg at hw
    have hgm0 : alFind (gm0Of w d) x = none :=
      (gm0Of_find_none w d horg hgnames x).mpr hw
    have hnact : x ∉ ((userGroups w u).map WGroup.toCoderGroup).map
        (fun y => y.name) := by
      intro hmem
      rw [List.map_map] at hmem
      obtain ⟨H, hH, hHname⟩ := List.mem_map.mp hmem
      rw [userGroups] at hH
      exact hw H (List.mem_filter.mp hH).1 hHname
    have hadd : x ∈ (userDiff worldClient w d.id u).1 := by
      rw [userDiff_world w d hunames husern u hu,
        mem_symmetricDifference_add]
      exact ⟨hx, hnact⟩
    have hcadd : u.id ∈ collectAdds worldClient w d.id domain
        (worldClient.listUsers w) x :=
      (mem_collectAdds worldClient w d.id domain (worldClient.listUsers w)
        x huids u hu).mpr ⟨helig, hadd⟩
    have hk : x ∈ ksOf w domain d :=
      (perUserLoop_keys worldClient w d.id domain (worldClient.listUsers w)
        0 (trInit d) x).mpr (fun hab => by
          rw [hab.1] at hcadd
          exact absurd hcadd (List.not_mem_nil _))
    refine ⟨newWGroup d.id x, ?_, rfl⟩
    rw [allGOf]
    exact List.mem_append_right _
      ((mem_createdWOf w domain d _).mpr ⟨x, hk, hgm0, rfl⟩)

/-- The target state a nonempty run leaves behind. -/
def finalWorld (w : World) (domain : String) (d : Organization) : World :=
  { w with groups := (allGOf w domain d).map (finalizeG w domain d) }

theorem finalizeG_name (w : World) (domain : String) (d : Organization)
    (G : WGroup) : (finalizeG w domain d G).name = G.name :=
  foldl_patch_keeps_name (gm1Of w domain d) (ch1Of w domain d) G

theorem finalizeG_id (w : World) (domain : String) (d : Organization)
    (G : WGroup) : (finalizeG w domain d G).id = G.id :=
  foldl_patch_keeps_id (gm1Of w domain d) (ch1Of w domain d) G

/-- The everyone-group name an eligible user sees is the same before and
after a run, when eligible users are already members of the scope's
all-members group (the target system auto-manages that membership). -/
theorem everyone_stable (w : World) (domain : String) (d : Organization)
    (horg : ∀ G ∈ w.groups, G.orgId = d.id)
    (hgnames : (w.groups.map (fun G => G.name)).Nodup)
    (hgids : (w.groups.map (fun G => G.id)).Nodup)
    (hfresh : ∀ nm G, G ∈ w.groups → createdGroupId nm ≠ G.id)
    (hfreshd : ∀ nm, createdGroupId nm ≠ d.id)
    (huids : (w.users.map (fun v => v.id)).Nodup)
    (hunames : (w.users.map (fun v => v.username)).Nodup)
    (husern : ∀ v ∈ w.users, v.username ≠ "")
    (heveryone : ∀ E ∈ w.groups, E.id = d.id →
      ∀ v ∈ w.users, eligibleUser domain v = true → v.id ∈ E.members)
    (u : CoderUser) (hu : u ∈ w.users)
    (helig : eligibleUser domain u = true) :
    everyoneGroupName
        ((userGroups (finalWorld w domain d) u).map WGroup.toCoderGroup)
        d.id =
      everyoneGroupName ((userGroups w u).map WGroup.toCoderGroup) d.id := by
  by_cases hexE : ∃ E ∈ w.groups, E.id = d.id
  · obtain ⟨E, hEw, hEid⟩ := hexE
    have huE : u.id ∈ E.members := heveryone E hEw hEid u hu helig
    have hev1 : everyoneGroupName
        ((userGroups w u).map WGroup.toCoderGroup) d.id = E.name := by
      apply everyoneGroupName_eq_name
      · refine ⟨WGroup.toCoderGroup E, List.mem_map_of_mem _ ?_, hEid⟩
        rw [userGroups]
        exact List.mem_filter.mpr ⟨hEw, List.elem_iff.mpr huE⟩
      · intro Gc hGc hGcid
        obtain ⟨H, hH, rfl⟩ := List.mem_map.mp hGc
        rw [userGroups] at hH
        have hHw : H ∈ w.groups := (List.mem_filter.mp hH).1
        have hHE : H = E := List.inj_on_of_nodup_map hgids hHw hEw
          (by rw [hEid]; exact hGcid)
        rw [hHE]
        rfl
    have hexp : E.name ∈ expectedOf w d u := by
      rw [expectedOf, ← hev1]
      exact List.mem_append_right _ (List.mem_singleton.mpr rfl)
    have hEall : E ∈ allGOf w domain d := by
      rw [allGOf]
      exact List.mem_append_left _ hEw
    have hmemE : u.id ∈ (finalizeG w domain d E).members :=
      (finalize_membership w domain d horg hgnames hgids hfresh huids
        hunames husern u hu helig E hEall).mpr hexp
    have hev2 : everyoneGroupName
        ((userGroups (finalWorld w domain d) u).map WGroup.toCoderGroup)
        d.id = E.name := by
      apply everyoneGroupName_eq_name
      · refine ⟨WGroup.toCoderGroup (finalizeG w domain d E),
          List.mem_map_of_mem _ ?_, ?_⟩
        · rw [userGroups]
          refine List.mem_filter.mpr ⟨?_, List.elem_iff.mpr hmemE⟩
          show finalizeG w domain d E ∈
            (allGOf w domain d).map (finalizeG w domain d)
          exact List.mem_map_of_mem _ hEall
        · show (finalizeG w domain d E).id = d.id
          rw [finalizeG_id]
          exact hEid
      · intro Gc hGc hGcid
        obtain ⟨H', hH', rfl⟩ := List.mem_map.mp hGc
        rw [userGroups] at hH'
        have h1 : H' ∈ (allGOf w domain d).map (finalizeG w domain d) :=
          (List.mem_filter.mp hH').1
        obtain ⟨H, hH, rfl⟩ := List.mem_map.mp h1
        have hHid : H.id = d.id := by
          rw [← finalizeG_id w domain d H]
          exact hGcid
        have hHsplit := hH
        rw [allGOf] at hHsplit
        rcases List.mem_append.mp hHsplit with hHw | hHc
        · have hHE : H = E := List.inj_on_of_nodup_map hgids hHw hEw
            (by rw [hEid]; exact hHid)
          show (finalizeG w domain d H).name = E.name
          rw [finalizeG_name, hHE]
        · exfalso
          obtain ⟨g, hgk, hgn, rfl⟩ := (mem_createdWOf w domain d H).mp hHc
          exact hfreshd g hHid
    rw [hev1, hev2]
  · push_neg at hexE
    have hev1 : everyoneGroupName
        ((userGroups w u).map WGroup.toCoderGroup) d.id = "Everyone" := by
      apply everyoneGroupName_default
      intro Gc hGc
      obtain ⟨H, hH, rfl⟩ := List.mem_map.mp hGc
      rw [userGroups] at hH
      exact hexE H (List.mem_filter.mp hH).1
    have hev2 : everyoneGroupName
        ((userGroups (finalWorld w domain d) u).map WGroup.toCoderGroup)
        d.id = "Everyone" := by
      apply everyoneGroupName_default
      intro Gc hGc hid
      obtain ⟨H', hH', rfl⟩ := List.mem_map.mp hGc
      rw [userGroups] at hH'
      have h1 : H' ∈ (allGOf w domain d).map (finalizeG w domain d) :=
        (List.mem_filter.mp hH').1
      obtain ⟨H, hH, rfl⟩ := List.mem_map.mp h1
      have hHid : H.id = d.id := by
        rw [← finalizeG_id w domain d H]
        exact hid
      have hHsplit := hH
      rw [allGOf] at hHsplit
      rcases List.mem_append.mp hHsplit with hHw | hHc
      · exact hexE H hHw hHid
      · obtain ⟨g, hgk, hgn, rfl⟩ := (mem_createdWOf w domain d H).mp hHc
        exact hfreshd g hHid
    rw [hev1, hev2]

/-- C2 (amended): on a well-formed target state — all groups in the default
organization with duplicate-free names and IDs, fresh creation IDs, users
with duplicate-free IDs and nonempty duplicate-free usernames, and every
eligible user already a member of the scope's all-members group — a run
whose change set is fully applied (every creation and patch succeeds, which
on the concrete target system is always the case) is idempotent: the second
run leaves the state untouched, reports "no changes", and both its diffed
and final change sets are empty. -/
theorem syncGroups_idempotent (w : World) (domain : String)
    (d : Organization) (w₁ : World) (tr₁ : List ApiCall) (r₁ : SyncReport)
    (hdef : defaultOrganization w.organizations = some d)
    (horg : ∀ G ∈ w.groups, G.orgId = d.id)
    (hgnames : (w.groups.map (fun G => G.name)).Nodup)
    (hgids : (w.groups.map (fun G => G.id)).Nodup)
    (hfresh : ∀ nm G, G ∈ w.groups → createdGroupId nm ≠ G.id)
    (hfreshd : ∀ nm, createdGroupId nm ≠ d.id)
    (huids : (w.users.map (fun v => v.id)).Nodup)
    (hunames : (w.users.map (fun v => v.username)).Nodup)
    (husern : ∀ v ∈ w.users, v.username ≠ "")
    (heveryone : ∀ E ∈ w.groups, E.id = d.id →
      ∀ v ∈ w.users, eligibleUser domain v = true → v.id ∈ E.members)
    (hrun1 : SyncGroups worldClient w domain = (w₁, tr₁, Except.ok r₁)) :
    ∃ tr₂ r₂, SyncGroups worldClient w₁ domain = (w₁, tr₂, Except.ok r₂) ∧
      r₂.noChanges = true ∧ r₂.changesAfterDiff = [] ∧
      r₂.finalChanges = [] := by
  have hdefE : defaultOrganization (worldClient.listOrganizations w) =
      some d := hdef
  by_cases hemp : (ch1Of w domain d).isEmpty = true
  · have hrunw : SyncGroups worldClient w domain = (w, (diffedOf w domain d).2.2, Except.ok { oidcUserCount := (diffedOf w domain d).2.1, noChanges := true, changesAfterDiff := ch1Of w domain d, createdGroups := [], finalChanges := ch1Of w domain d }) := by
      simp only [SyncGroups, hdefE]
      simp only [syncAfterDefault]
      rw [show (perUserLoop worldClient w d.id domain
        (worldClient.listUsers w) [] 0 (trInit d)).1.isEmpty = true from
        hemp, if_pos rfl]
      rfl
    rw [hrunw] at hrun1
    have hw₁ : w = w₁ := congrArg (fun t => t.1) hrun1
    subst hw₁
    refine ⟨(diffedOf w domain d).2.2, { oidcUserCount := (diffedOf w domain d).2.1, noChanges := true, changesAfterDiff := [], createdGroups := [], finalChanges := [] }, ?_, rfl, rfl, rfl⟩
    rw [hrunw, show ch1Of w domain d = [] from List.isEmpty_iff.mp hemp]
  · have hne : (ch1Of w domain d).isEmpty = false := by
      cases h : (ch1Of w domain d).isEmpty
      · rfl
      · exact absurd h hemp
    obtain ⟨tr0, r0, hrun⟩ := syncGroups_run_shape w domain d hdef hne
    have hrunF : SyncGroups worldClient w domain =
        (finalWorld w domain d, tr0, Except.ok r0) := hrun
    rw [hrunF] at hrun1
    have hw₁ : finalWorld w domain d = w₁ := congrArg (fun t => t.1) hrun1
    subst hw₁
    have hdiff2 : ∀ u ∈ w.users, eligibleUser domain u = true →
        userDiff worldClient (finalWorld w domain d) d.id u = ([], []) := by
      intro u hu helig
      have hNu : ((finalWorld w domain d).users.map
          (fun v => v.username)).Nodup := hunames
      have hnn : ∀ v ∈ (finalWorld w domain d).users, v.username ≠ "" :=
        husern
      have huf : u ∈ (finalWorld w domain d).users := hu
      rw [userDiff_world (finalWorld w domain d) d hNu hnn u huf]
      apply symmetricDifference_eq_nil
      intro x
      have hev := everyone_stable w domain d horg hgnames hgids hfresh
        hfreshd huids hunames husern heveryone u hu helig
      have hexp2 : expectedOf (finalWorld w domain d) d u =
          expectedOf w d u := by
        rw [expectedOf, expectedOf, hev]
        rfl
      rw [hexp2]
      constructor
      · intro hx
        rw [List.map_map] at hx
        obtain ⟨H', hH', hname⟩ := List.mem_map.mp hx
        rw [userGroups] at hH'
        have h1 : H' ∈ (allGOf w domain d).map (finalizeG w domain d) :=
          (List.mem_filter.mp hH').1
        have h2 := List.elem_iff.mp (List.mem_filter.mp hH').2
        obtain ⟨H, hH, rfl⟩ := List.mem_map.mp h1
        have hm := (finalize_membership w domain d horg hgnames hgids
          hfresh huids hunames husern u hu helig H hH).mp h2
        rw [← hname]
        show (finalizeG w domain d H).name ∈ expectedOf w d u
        rw [finalizeG_name]
        exact hm
      · intro hx
        obtain ⟨H, hH, hname⟩ := expectedOf_sub w domain d horg hgnames
          hunames husern huids u hu helig x hx
        have hm := (finalize_membership w domain d horg hgnames hgids
          hfresh huids hunames husern u hu helig H hH).mpr
          (by rw [hname]; exact hx)
        rw [List.map_map]
        refine List.mem_map.mpr ⟨finalizeG w domain d H, ?_, ?_⟩
        · rw [userGroups]
          refine List.mem_filter.mpr ⟨?_, List.elem_iff.mpr hm⟩
          show finalizeG w domain d H ∈
            (allGOf w domain d).map (finalizeG w domain d)
          exact List.mem_map_of_mem _ hH
        · show (finalizeG w domain d H).name = x
          rw [finalizeG_name]
          exact hname
    have hA : ∀ g, collectAdds worldClient (finalWorld w domain d) d.id
        domain (worldClient.listUsers (finalWorld w domain d)) g = [] := by
      intro g
      have hf : ((worldClient.listUsers (finalWorld w domain d)).filter
          (fun u => eligibleUser domain u &&
            decide (g ∈ (userDiff worldClient (finalWorld w domain d)
              d.id u).1))) = [] := by
        rw [List.filter_eq_nil_iff]
        intro u hu
        cases helig : eligibleUser domain u with
        | false => simp [helig]
        | true =>
          have hu' : u ∈ w.users := hu
          rw [hdiff2 u hu' helig]
          simp [helig]
      rw [collectAdds, hf]
      rfl
    have hR : ∀ g, collectRems worldClient (finalWorld w domain d) d.id
        domain (worldClient.listUsers (finalWorld w domain d)) g = [] := by
      intro g
      have hf : ((worldClient.listUsers (finalWorld w domain d)).filter
          (fun u => eligibleUser domain u &&
            decide (g ∈ (userDiff worldClient (finalWorld w domain d)
              d.id u).2))) = [] := by
        rw [List.filter_eq_nil_iff]
        intro u hu
        cases helig : eligibleUser domain u with
        | false => simp [helig]
        | true =>
          have hu' : u ∈ w.users := hu
          rw [hdiff2 u hu' helig]
          simp [helig]
      rw [collectRems, hf]
      rfl
    have hks : ksOf (finalWorld w domain d) domain d = [] :=
      List.eq_nil_iff_forall_not_mem.mpr (fun g hg =>
        ((perUserLoop_keys worldClient (finalWorld w domain d) d.id domain
          (worldClient.listUsers (finalWorld w domain d)) 0 (trInit d)
          g).mp hg) ⟨hA g, hR g⟩)
    have hch2 : ch1Of (finalWorld w domain d) domain d = [] :=
      List.map_eq_nil_iff.mp hks
    refine ⟨(diffedOf (finalWorld w domain d) domain d).2.2, { oidcUserCount := (diffedOf (finalWorld w domain d) domain d).2.1, noChanges := true, changesAfterDiff := [], createdGroups := [], finalChanges := [] }, ?_, rfl, rfl, rfl⟩
    have hdefE2 : defaultOrganization
        (worldClient.listOrganizations (finalWorld w domain d)) = some d :=
      hdef
    simp only [SyncGroups, hdefE2]
    simp only [syncAfterDefault]
    rw [show (perUserLoop worldClient (finalWorld w domain d) d.id domain
      (worldClient.listUsers (finalWorld w domain d)) [] 0 (trInit d)).1 =
      [] from hch2]
    rw [if_pos (show (List.isEmpty ([] : ChangeGroupRequests)) = true from
      rfl)]
    rfl

/-- A minimal well-formed world for exercising the idempotence theorem. -/
def idemWorld : World where
  organizations := [{ id := "org1", isDefault := true }]
  groups := []
  users := []
  googleGroupsOf := fun _ => []

theorem idem_fresh (nm : String) : createdGroupId nm ≠ "org1" := by
  intro h
  rw [createdGroupId] at h
  have hlen := congrArg String.length h
  rw [String.length_append] at hlen
  have h1 : "created-".length = 8 := rfl
  have h2 : "org1".length = 4 := rfl
  rw [h1, h2] at hlen
  omega

theorem syncGroups_idempotent_witness :
    ∃ tr₂ r₂, SyncGroups worldClient idemWorld "example.com" =
      (idemWorld, tr₂, Except.ok r₂) ∧ r₂.noChanges = true ∧
      r₂.changesAfterDiff = [] ∧ r₂.finalChanges = [] :=
  syncGroups_idempotent idemWorld "example.com"
    { id := "org1", isDefault := true } idemWorld
    [ApiCall.listOrganizations, ApiCall.listGroups { organization := "org1" },
     ApiCall.listUsers]
    { oidcUserCount := 0, noChanges := true, changesAfterDiff := [],
      createdGroups := [], finalChanges := [] }
    rfl
    (fun G hG => absurd hG (List.not_mem_nil G))
    List.nodup_nil
    List.nodup_nil
    (fun _ G hG => absurd hG (List.not_mem_nil G))
    (fun nm => idem_fresh nm)
    List.nodup_nil
    List.nodup_nil
    (fun v hv => absurd hv (List.not_mem_nil v))
    (fun E hE => absurd hE (List.not_mem_nil E))
    rfl

end GWSync
